import Mathlib

/-!
Verification of the miniconfig configuration library.

The development shallowly embeds the code of `src/dyn_config/config.rs`
(serialization of a dynamic config tree to the binary format),
`src/lua_config/table.rs` (typed accessors, `set`, and the Lua-text
pretty-printer of tables) and `src/ini/config.rs` (the INI event sink
contract).  Components of the repository that are not present under `src/`
(the binary config writer and reader, the dynamic table container, the
`Value` helpers, the INI parser internals and the display utilities) are
modelled from the specification; each such definition carries a doc
comment starting with `Modelled from the spec:`.

Machine integers are modelled as `Nat` / `Int` with explicit bounds;
`f64` payloads are carried as their IEEE-754 bit patterns (`Nat < 2^64`),
matching the bitwise value comparison the library uses for round trips.
Rust strings are byte strings (`List Nat`, each byte `< 256`); Rust's
`str::cmp` is lexicographic byte order, which the embedding mirrors.
-/

namespace MiniCfg

/-! ## Generic lexicographic order on lists (Rust `cmp` on byte strings) -/

/-- Lexicographic (non-strict) order on lists over a linear order,
as Rust's derived `cmp`/`sort` uses for `&[u8]` and `&str`. -/
def lexLe {α : Type} [LinearOrder α] : List α → List α → Bool
  | [], _ => true
  | _ :: _, [] => false
  | a :: as, b :: bs => if a < b then true else if b < a then false else lexLe as bs

/-- Lexicographic strict order on lists. -/
def lexLt {α : Type} [LinearOrder α] : List α → List α → Bool
  | [], [] => false
  | [], _ :: _ => true
  | _ :: _, [] => false
  | a :: as, b :: bs => if a < b then true else if b < a then false else lexLt as bs

theorem lexLe_refl {α : Type} [LinearOrder α] (l : List α) : lexLe l l = true := by
  induction l with
  | nil => rfl
  | cons a as ih => simp [lexLe, ih]

theorem lexLe_total {α : Type} [LinearOrder α] (l₁ l₂ : List α) :
    lexLe l₁ l₂ = true ∨ lexLe l₂ l₁ = true := by
  induction l₁ generalizing l₂ with
  | nil => left; rfl
  | cons a as ih =>
    cases l₂ with
    | nil => right; rfl
    | cons b bs =>
      rcases lt_trichotomy a b with h | h | h
      · left; simp [lexLe, h]
      · subst h
        rcases ih bs with h2 | h2
        · left; simp [lexLe, h2]
        · right; simp [lexLe, h2]
      · right; simp [lexLe, h]

theorem lexLe_trans {α : Type} [LinearOrder α] {l₁ l₂ l₃ : List α}
    (h₁ : lexLe l₁ l₂ = true) (h₂ : lexLe l₂ l₃ = true) : lexLe l₁ l₃ = true := by
  induction l₁ generalizing l₂ l₃ with
  | nil => rfl
  | cons a as ih =>
    cases l₂ with
    | nil => simp [lexLe] at h₁
    | cons b bs =>
      cases l₃ with
      | nil => simp [lexLe] at h₂
      | cons c cs =>
        simp only [lexLe] at h₁ h₂ ⊢
        rcases lt_trichotomy a b with hab | hab | hab
        · rcases lt_trichotomy b c with hbc | hbc | hbc
          · simp [lt_trans hab hbc]
          · subst hbc; simp [hab]
          · simp [hbc, asymm hbc] at h₂
        · subst hab
          rcases lt_trichotomy a c with hac | hac | hac
          · simp [hac]
          · subst hac
            rw [if_neg (lt_irrefl a), if_neg (lt_irrefl a)] at h₁ h₂ ⊢
            exact ih h₁ h₂
          · simp [hac, asymm hac] at h₂
        · simp [hab, asymm hab] at h₁

theorem lexLe_antisymm {α : Type} [LinearOrder α] {l₁ l₂ : List α}
    (h₁ : lexLe l₁ l₂ = true) (h₂ : lexLe l₂ l₁ = true) : l₁ = l₂ := by
  induction l₁ generalizing l₂ with
  | nil =>
    cases l₂ with
    | nil => rfl
    | cons b bs => simp [lexLe] at h₂
  | cons a as ih =>
    cases l₂ with
    | nil => simp [lexLe] at h₁
    | cons b bs =>
      simp only [lexLe] at h₁ h₂
      rcases lt_trichotomy a b with hab | hab | hab
      · simp [hab, asymm hab] at h₂
      · subst hab
        rw [if_neg (lt_irrefl a), if_neg (lt_irrefl a)] at h₁ h₂
        rw [ih h₁ h₂]
      · simp [hab, asymm hab] at h₁

theorem lexLt_iff_le_not_le {α : Type} [LinearOrder α] {l₁ l₂ : List α} :
    lexLt l₁ l₂ = true ↔ (lexLe l₁ l₂ = true ∧ ¬ lexLe l₂ l₁ = true) := by
  induction l₁ generalizing l₂ with
  | nil =>
    cases l₂ with
    | nil => simp [lexLt, lexLe]
    | cons b bs => simp [lexLt, lexLe]
  | cons a as ih =>
    cases l₂ with
    | nil => simp [lexLt, lexLe]
    | cons b bs =>
      simp only [lexLt, lexLe]
      rcases lt_trichotomy a b with hab | hab | hab
      · simp [hab, asymm hab]
      · subst hab
        simp only [lt_irrefl, if_false, ih]
      · simp [hab, asymm hab]

/-! ## Byte strings and byte-level primitives of the binary format -/

/-- A Rust byte string (the bytes of a `str` / `String`). -/
abbrev ByteStr := List Nat

/-- Ordering used by `str::cmp` (lexicographic byte order). -/
abbrev leBytes (a b : ByteStr) : Bool := lexLe a b

/-- Strict byte-string order. -/
abbrev ltBytes (a b : ByteStr) : Bool := lexLt a b

/-- Little-endian 4-byte encoding of a `u32` value. -/
def u32le (n : Nat) : List Nat :=
  [n % 256, n / 256 % 256, n / 256 ^ 2 % 256, n / 256 ^ 3 % 256]

/-- Little-endian 8-byte encoding of a `u64` value. -/
def u64le (n : Nat) : List Nat :=
  [n % 256, n / 256 % 256, n / 256 ^ 2 % 256, n / 256 ^ 3 % 256,
   n / 256 ^ 4 % 256, n / 256 ^ 5 % 256, n / 256 ^ 6 % 256, n / 256 ^ 7 % 256]

/-- Reads a little-endian `u32` from four bytes. -/
def dec32 (b0 b1 b2 b3 : Nat) : Nat := b0 + 256 * b1 + 256 ^ 2 * b2 + 256 ^ 3 * b3

/-- Reads a little-endian `u64` from eight bytes. -/
def dec64 (b0 b1 b2 b3 b4 b5 b6 b7 : Nat) : Nat :=
  b0 + 256 * b1 + 256 ^ 2 * b2 + 256 ^ 3 * b3 +
  256 ^ 4 * b4 + 256 ^ 5 * b5 + 256 ^ 6 * b6 + 256 ^ 7 * b7

theorem u32le_length (n : Nat) : (u32le n).length = 4 := rfl

theorem u64le_length (n : Nat) : (u64le n).length = 8 := rfl

theorem dec32_u32le {n : Nat} (h : n < 2 ^ 32) :
    dec32 (n % 256) (n / 256 % 256) (n / 256 ^ 2 % 256) (n / 256 ^ 3 % 256) = n := by
  simp only [dec32]
  omega

theorem dec64_u64le {n : Nat} (h : n < 2 ^ 64) :
    dec64 (n % 256) (n / 256 % 256) (n / 256 ^ 2 % 256) (n / 256 ^ 3 % 256)
      (n / 256 ^ 4 % 256) (n / 256 ^ 5 % 256) (n / 256 ^ 6 % 256) (n / 256 ^ 7 % 256) = n := by
  simp only [dec64]
  omega

/-- Two's-complement encoding of an `i64` as a `u64` value. -/
def i64ToU64 (n : Int) : Nat := (n % (2 ^ 64 : Int)).toNat

/-- Decoding of a `u64` value as a two's-complement `i64`. -/
def u64ToI64 (n : Nat) : Int := if n < 2 ^ 63 then (n : Int) else (n : Int) - 2 ^ 64

theorem u64ToI64_i64ToU64 {n : Int} (h₁ : -2 ^ 63 ≤ n) (h₂ : n < 2 ^ 63) :
    u64ToI64 (i64ToU64 n) = n := by
  simp only [u64ToI64, i64ToU64]
  omega

theorem i64ToU64_lt (n : Int) : i64ToU64 n < 2 ^ 64 := by
  simp only [i64ToU64]
  omega

/-! ## The dynamic value tree (`Value` over the owned dynamic containers)

`DVal` embeds `Value<String, DynArray, DynTable>`: the dynamic tree that
`DynConfig` owns.  `DynTable` (a `HashMap<String, DynConfigValue>`) is
modelled from the spec as an association list with no duplicate keys whose
iteration order is the list order ("iteration order is
implementation-defined for the dynamic form"); `DynArray` is a list.
The `f64` payload is the IEEE-754 bit pattern. -/

inductive DVal where
  | bool (b : Bool)
  | i64 (n : Int)
  | f64 (bits : Nat)
  | str (s : ByteStr)
  | arr (elems : List DVal)
  | table (entries : List (ByteStr × DVal))

/-- Type tag of a value, as stored in the high 4 bits of an entry's
`type_and_key_len` field (Bool=0, I64=1, F64=2, String=3, Array=4, Table=5). -/
def tagOf : DVal → Nat
  | .bool _ => 0
  | .i64 _ => 1
  | .f64 _ => 2
  | .str _ => 3
  | .arr _ => 4
  | .table _ => 5

/-- Modelled from the spec: `DynTable::get` — `HashMap` lookup by exact key
(the dynamic table container is not under `src/`). -/
def lookupB (k : ByteStr) : List (ByteStr × DVal) → Option DVal
  | [] => none
  | e :: es => if e.1 = k then some e.2 else lookupB k es

/-- The keys of a table's entry list, in iteration order. -/
def keysOf (es : List (ByteStr × DVal)) : List ByteStr := es.map Prod.fst

/-- Key-wise order on table entries, used to sort a table canonically. -/
def keyLe (a b : ByteStr × DVal) : Prop := leBytes a.1 b.1 = true

instance : DecidableRel keyLe := fun a b => by unfold keyLe; infer_instance

instance : IsTotal (ByteStr × DVal) keyLe :=
  ⟨fun a b => lexLe_total a.1 b.1⟩

instance : IsTrans (ByteStr × DVal) keyLe :=
  ⟨fun _ _ _ h₁ h₂ => lexLe_trans h₁ h₂⟩

/-- Plain byte-string order as a `Prop` relation (for sorting key lists). -/
def bLe (a b : ByteStr) : Prop := leBytes a b = true

instance : DecidableRel bLe := fun a b => by unfold bLe; infer_instance

instance : IsTotal ByteStr bLe := ⟨fun a b => lexLe_total a b⟩

instance : IsTrans ByteStr bLe := ⟨fun _ _ _ h₁ h₂ => lexLe_trans h₁ h₂⟩

/-- Every element of the list shares the type tag of the first
(array type homogeneity). -/
def homogB : List DVal → Bool
  | [] => true
  | c :: cs => cs.all (fun v => tagOf v == tagOf c)

/-- No key occurs twice. -/
def nodupKeysB : List ByteStr → Bool
  | [] => true
  | k :: ks => !(ks.contains k) && nodupKeysB ks

mutual
/-- Well-formedness of a dynamic value, the invariants the library
maintains on every dynamic tree (spec §3): table keys are non-empty byte
strings of bytes `< 256` with length `< 2^28`, no duplicate keys in a
table, arrays are type-homogeneous, `i64` payloads fit two's-complement
64 bits, `f64` bit patterns fit 64 bits, strings are bytes `< 256` with
length `< 2^32`. -/
def wfB : DVal → Bool
  | .bool _ => true
  | .i64 n => decide (-2 ^ 63 ≤ n) && decide (n < 2 ^ 63)
  | .f64 bits => decide (bits < 2 ^ 64)
  | .str s => s.all (fun b => b < 256) && decide (s.length < 2 ^ 32)
  | .arr cs => wfArrB cs && homogB cs
  | .table es => wfTblB es && nodupKeysB (keysOf es)

/-- All elements of an array are well-formed. -/
def wfArrB : List DVal → Bool
  | [] => true
  | c :: cs => wfB c && wfArrB cs

/-- All entries of a table are well-formed, with valid keys. -/
def wfTblB : List (ByteStr × DVal) → Bool
  | [] => true
  | e :: es =>
    decide (e.1 ≠ []) && e.1.all (fun b => b < 256) && decide (e.1.length < 2 ^ 28) &&
      wfB e.2 && wfTblB es
end

mutual
/-- Canonical form of a dynamic value: every table's entry list is sorted
lexicographically by key (stably), recursively.  The binary writer's output
is a function of the canonical form. -/
def canon : DVal → DVal
  | .bool b => .bool b
  | .i64 n => .i64 n
  | .f64 x => .f64 x
  | .str s => .str s
  | .arr cs => .arr (canonArr cs)
  | .table es => .table (List.insertionSort keyLe (canonTbl es))

/-- Canonical forms of an array's elements. -/
def canonArr : List DVal → List DVal
  | [] => []
  | c :: cs => canon c :: canonArr cs

/-- Canonical forms of a table's entries (before sorting). -/
def canonTbl : List (ByteStr × DVal) → List (ByteStr × DVal)
  | [] => []
  | e :: es => (e.1, canon e.2) :: canonTbl es
end

/-- Value equality of dynamic trees: scalars compare by payload (`f64`
bitwise), arrays element-wise in order, tables as unordered key/value
collections (same keys up to permutation, and values of a common key
equal recursively). -/
inductive VEq : DVal → DVal → Prop where
  | bool (b : Bool) : VEq (.bool b) (.bool b)
  | i64 (n : Int) : VEq (.i64 n) (.i64 n)
  | f64 (x : Nat) : VEq (.f64 x) (.f64 x)
  | str (s : ByteStr) : VEq (.str s) (.str s)
  | arr (cs₁ cs₂ : List DVal) : cs₁.length = cs₂.length →
      (∀ i v₁ v₂, cs₁.get? i = some v₁ → cs₂.get? i = some v₂ → VEq v₁ v₂) →
      VEq (.arr cs₁) (.arr cs₂)
  | table (es₁ es₂ : List (ByteStr × DVal)) : (keysOf es₁).Perm (keysOf es₂) →
      (∀ k v₁ v₂, lookupB k es₁ = some v₁ → lookupB k es₂ = some v₂ → VEq v₁ v₂) →
      VEq (.table es₁) (.table es₂)

/-! ## The serializer of `DynConfig` (src/dyn_config/config.rs)

The binary writer (`BinConfigWriter`, not under `src/`) exposes the push
calls `bool`, `i64`, `f64`, `string`, `array`, `table`, `end`.  The
serializer's interaction with it is embedded as the list of calls it
performs; the writer itself is modelled from the spec further below as a
consumer of this call sequence.  `WOp.endOp` stands for `end()` (a Lean
keyword).  The `unwrap` on `table.get` is modelled by `Option`: a `none`
result of the serializer is the panic.  The recursion is fueled (Rust
recurses natively); every theorem assumes enough fuel for the tree. -/

inductive WOp where
  | bool (key : Option ByteStr) (b : Bool)
  | i64 (key : Option ByteStr) (n : Int)
  | f64 (key : Option ByteStr) (bits : Nat)
  | string (key : Option ByteStr) (s : ByteStr)
  | array (key : Option ByteStr) (len : Nat)
  | table (key : Option ByteStr) (len : Nat)
  | endOp
deriving DecidableEq

mutual
/-- Embeds `DynConfig::value_to_bin_config`: emits the scalar writer call,
or the container call followed by the container's contents and `end()`. -/
def value_to_bin_config : Nat → Option ByteStr → DVal → Option (List WOp)
  | _, key, .bool v => some [.bool key v]
  | _, key, .i64 v => some [.i64 key v]
  | _, key, .f64 v => some [.f64 key v]
  | _, key, .str v => some [.string key v]
  | fuel, key, .arr v =>
    match fuel with
    | 0 => none
    | fuel + 1 =>
      match array_to_bin_config fuel v with
      | none => none
      | some ops => some (.array key v.length :: ops ++ [.endOp])
  | fuel, key, .table v =>
    match fuel with
    | 0 => none
    | fuel + 1 =>
      match table_to_bin_config fuel v with
      | none => none
      | some ops => some (.table key v.length :: ops ++ [.endOp])
termination_by fuel _ _ => (fuel, 0)
decreasing_by
  · apply Prod.Lex.left; omega
  · apply Prod.Lex.left; omega

/-- Embeds `DynConfig::array_to_bin_config`: iterates the array in order. -/
def array_to_bin_config : Nat → List DVal → Option (List WOp)
  | _, [] => some []
  | fuel, c :: cs =>
    match value_to_bin_config fuel none c with
    | none => none
    | some a =>
      match array_to_bin_config fuel cs with
      | none => none
      | some b => some (a ++ b)
termination_by fuel cs => (fuel, cs.length + 1)
decreasing_by
  all_goals simp only [List.length_cons]
  · apply Prod.Lex.right; omega
  · apply Prod.Lex.right; omega

/-- Embeds `DynConfig::table_to_bin_config`: gathers the keys, sorts them
in alphabetical (byte-lexicographic) order, then iterates the table using
the sorted keys, looking each key up with `get` and unwrapping. -/
def table_to_bin_config (fuel : Nat) (es : List (ByteStr × DVal)) : Option (List WOp) :=
  tblGo fuel es (List.insertionSort bLe (keysOf es))
termination_by (fuel, es.length + 2)
decreasing_by
  apply Prod.Lex.right
  have := (List.perm_insertionSort bLe (keysOf es)).length_eq
  simp only [keysOf, List.length_map] at this ⊢
  omega

/-- The loop of `table_to_bin_config` over the sorted key vector. -/
def tblGo : Nat → List (ByteStr × DVal) → List ByteStr → Option (List WOp)
  | _, _, [] => some []
  | fuel, es, k :: ks =>
    match lookupB k es with
    | none => none
    | some v =>
      match value_to_bin_config fuel (some k) v with
      | none => none
      | some a =>
        match tblGo fuel es ks with
        | none => none
        | some b => some (a ++ b)
termination_by fuel _ ks => (fuel, ks.length + 1)
decreasing_by
  all_goals simp only [List.length_cons]
  · apply Prod.Lex.right; omega
  · apply Prod.Lex.right; omega
end

/-! ## The specification-shaped op stream

`opsVal` is the op stream the spec describes, written as a plain structural
recursion over an already-canonical tree: table entries are emitted in
(their stored, sorted) order, array elements in index order, and `end()`
exactly once at the close of every array and table. -/

mutual
/-- Spec-shaped op stream of one value. -/
def opsVal (key : Option ByteStr) : DVal → List WOp
  | .bool b => [.bool key b]
  | .i64 n => [.i64 key n]
  | .f64 x => [.f64 key x]
  | .str s => [.string key s]
  | .arr cs => .array key cs.length :: opsArr cs ++ [.endOp]
  | .table es => .table key es.length :: opsTbl es ++ [.endOp]

/-- Spec-shaped op stream of an array's elements, in index order. -/
def opsArr : List DVal → List WOp
  | [] => []
  | c :: cs => opsVal none c ++ opsArr cs

/-- Spec-shaped op stream of a table's entries, in stored order. -/
def opsTbl : List (ByteStr × DVal) → List WOp
  | [] => []
  | e :: es => opsVal (some e.1) e.2 ++ opsTbl es
end

/-- Tests whether an op is `end()`. -/
def isEndOp : WOp → Bool
  | .endOp => true
  | _ => false

/-- Number of `end()` calls in an op stream. -/
def countEnd (ops : List WOp) : Nat := (ops.filter isEndOp).length

mutual
/-- Number of composite (array or table) values in a tree, the value
itself included. -/
def compC : DVal → Nat
  | .bool _ => 0
  | .i64 _ => 0
  | .f64 _ => 0
  | .str _ => 0
  | .arr cs => 1 + compCArr cs
  | .table es => 1 + compCTbl es

/-- Number of composite values among an array's elements. -/
def compCArr : List DVal → Nat
  | [] => 0
  | c :: cs => compC c + compCArr cs

/-- Number of composite values among a table's entries. -/
def compCTbl : List (ByteStr × DVal) → Nat
  | [] => 0
  | e :: es => compC e.2 + compCTbl es
end

/-- Canonical (sorted, recursively canonicalized) entry list of a table. -/
def canonT (es : List (ByteStr × DVal)) : List (ByteStr × DVal) :=
  List.insertionSort keyLe (canonTbl es)

theorem canon_table_def (es : List (ByteStr × DVal)) :
    canon (.table es) = .table (canonT es) := rfl

/-! ## A computable structural size measure (fuel bound for the serializer) -/

mutual
/-- Structural size of a value (used as a fuel bound). -/
def szVal : DVal → Nat
  | .bool _ => 1
  | .i64 _ => 1
  | .f64 _ => 1
  | .str _ => 1
  | .arr cs => 1 + szArr cs
  | .table es => 1 + szTbl es

/-- Structural size of an array's elements. -/
def szArr : List DVal → Nat
  | [] => 0
  | c :: cs => 1 + szVal c + szArr cs

/-- Structural size of a table's entries. -/
def szTbl : List (ByteStr × DVal) → Nat
  | [] => 0
  | e :: es => 1 + szVal e.2 + szTbl es
end

theorem szVal_pos (v : DVal) : 1 ≤ szVal v := by
  cases v <;> simp [szVal]

theorem szArr_mem {cs : List DVal} {c : DVal} (h : c ∈ cs) : szVal c < szArr cs := by
  induction cs with
  | nil => simp at h
  | cons x cs ih =>
    rcases List.mem_cons.mp h with h | h
    · subst h; simp [szArr]; omega
    · have := ih h; simp [szArr]; omega

/-! ## Supporting lemmas about lookup, keys, sorting and canonicalization -/

theorem lookupB_isSome_of_mem {k : ByteStr} {es : List (ByteStr × DVal)}
    (h : k ∈ keysOf es) : (lookupB k es).isSome = true := by
  induction es with
  | nil => simp [keysOf] at h
  | cons e es ih =>
    simp only [keysOf, List.map_cons, List.mem_cons] at h
    simp only [lookupB]
    rcases h with h | h
    · rw [if_pos h.symm]; rfl
    · split
      · rfl
      · exact ih h

theorem lookupB_mem {k : ByteStr} {es : List (ByteStr × DVal)} {v : DVal}
    (h : lookupB k es = some v) : (k, v) ∈ es := by
  induction es with
  | nil => simp [lookupB] at h
  | cons e es ih =>
    simp only [lookupB] at h
    split at h
    · cases h
      rename_i heq
      obtain ⟨k1, v1⟩ := e
      cases heq
      exact List.mem_cons_self _ _
    · exact List.mem_cons_of_mem _ (ih h)

theorem szTbl_mem {es : List (ByteStr × DVal)} {e : ByteStr × DVal} (h : e ∈ es) :
    szVal e.2 < szTbl es := by
  induction es with
  | nil => simp at h
  | cons x es ih =>
    rcases List.mem_cons.mp h with h | h
    · subst h; simp [szTbl]; omega
    · have := ih h; simp [szTbl]; omega

theorem lookupB_sz {k : ByteStr} {es : List (ByteStr × DVal)} {v : DVal}
    (h : lookupB k es = some v) : szVal v < szTbl es :=
  szTbl_mem (lookupB_mem h)

theorem nodupKeysB_iff {ks : List ByteStr} : nodupKeysB ks = true ↔ ks.Nodup := by
  induction ks with
  | nil => simp [nodupKeysB]
  | cons k ks ih =>
    simp [nodupKeysB, ih, List.nodup_cons]

theorem lookupB_of_mem_nodup {es : List (ByteStr × DVal)} {k : ByteStr} {v : DVal}
    (hnd : (keysOf es).Nodup) (hm : (k, v) ∈ es) : lookupB k es = some v := by
  induction es with
  | nil => simp at hm
  | cons e es ih =>
    simp only [keysOf, List.map_cons, List.nodup_cons] at hnd
    simp only [List.mem_cons] at hm
    simp only [lookupB]
    rcases hm with hm | hm
    · subst hm; simp
    · have hk : e.1 ≠ k := by
        intro he
        exact hnd.1 (he ▸ (List.mem_map.mpr ⟨(k, v), hm, rfl⟩))
      rw [if_neg hk]
      exact ih hnd.2 hm

theorem canonTbl_eq_map (es : List (ByteStr × DVal)) :
    canonTbl es = es.map (fun e => (e.1, canon e.2)) := by
  induction es with
  | nil => rfl
  | cons e es ih => simp [canonTbl, ih]

theorem canonArr_eq_map (cs : List DVal) : canonArr cs = cs.map canon := by
  induction cs with
  | nil => rfl
  | cons c cs ih => simp [canonArr, ih]

theorem keysOf_canonTbl (es : List (ByteStr × DVal)) : keysOf (canonTbl es) = keysOf es := by
  simp [canonTbl_eq_map, keysOf, List.map_map]

theorem lookupB_canonTbl (k : ByteStr) (es : List (ByteStr × DVal)) :
    lookupB k (canonTbl es) = (lookupB k es).map canon := by
  induction es with
  | nil => rfl
  | cons e es ih =>
    simp only [canonTbl, lookupB]
    split
    · rfl
    · exact ih

theorem map_fst_orderedInsert (e : ByteStr × DVal) (l : List (ByteStr × DVal)) :
    (List.orderedInsert keyLe e l).map Prod.fst =
      List.orderedInsert bLe e.1 (l.map Prod.fst) := by
  induction l with
  | nil => rfl
  | cons b l ih =>
    simp only [List.orderedInsert, List.map_cons]
    by_cases h : keyLe e b
    · rw [if_pos h, if_pos (show bLe e.1 b.1 from h)]
      simp
    · rw [if_neg h, if_neg (show ¬ bLe e.1 b.1 from h)]
      simp [ih]

theorem map_fst_insertionSort (es : List (ByteStr × DVal)) :
    (List.insertionSort keyLe es).map Prod.fst = List.insertionSort bLe (es.map Prod.fst) := by
  induction es with
  | nil => rfl
  | cons e es ih =>
    simp only [List.insertionSort, List.map_cons]
    rw [map_fst_orderedInsert, ih]

theorem eq_map_of_map_eq {α β : Type} {l : List α} {m : List β} {f : α → β} {g : β → α}
    (h₁ : l.map f = m) (h₂ : ∀ x ∈ l, x = g (f x)) : l = m.map g := by
  induction l generalizing m with
  | nil => simp at h₁; simp [← h₁]
  | cons a l ih =>
    cases m with
    | nil => simp at h₁
    | cons b m =>
      simp only [List.map_cons, List.cons.injEq] at h₁ ⊢
      constructor
      · rw [h₂ a (by simp), h₁.1]
      · exact ih h₁.2 (fun x hx => h₂ x (by simp [hx]))

/-- The value at key `k`, with an arbitrary default (every use site
establishes that the key is present). -/
def getV (k : ByteStr) (es : List (ByteStr × DVal)) : DVal := (lookupB k es).getD (.bool true)

/-- The canonical entry list coincides with the list obtained by sorting
the keys and pairing each sorted key with the canonical form of its value,
as the serializer does. -/
theorem canonT_eq_sorted_keys_map {es : List (ByteStr × DVal)}
    (hnd : (keysOf es).Nodup) :
    canonT es = (List.insertionSort bLe (keysOf es)).map
      (fun k => (k, canon (getV k es))) := by
  apply eq_map_of_map_eq
  · rw [canonT, map_fst_insertionSort]
    rw [show (canonTbl es).map Prod.fst = keysOf (canonTbl es) from rfl, keysOf_canonTbl]
  · intro x hx
    have hx₂ : x ∈ canonTbl es := (List.perm_insertionSort keyLe (canonTbl es)).mem_iff.mp hx
    rw [canonTbl_eq_map] at hx₂
    rcases List.mem_map.mp hx₂ with ⟨e, he, hex⟩
    subst hex
    simp only [getV]
    rw [lookupB_of_mem_nodup hnd (by exact he)]
    rfl

/-! ## Well-formedness accessors -/

theorem wfArrB_mem {cs : List DVal} {c : DVal} (h : wfArrB cs = true) (hm : c ∈ cs) :
    wfB c = true := by
  induction cs with
  | nil => simp at hm
  | cons x cs ih =>
    simp only [wfArrB, Bool.and_eq_true] at h
    rcases List.mem_cons.mp hm with hm | hm
    · exact hm ▸ h.1
    · exact ih h.2 hm

theorem wfTblB_mem {es : List (ByteStr × DVal)} {e : ByteStr × DVal}
    (h : wfTblB es = true) (hm : e ∈ es) : wfB e.2 = true := by
  induction es with
  | nil => simp at hm
  | cons x es ih =>
    simp only [wfTblB, Bool.and_eq_true] at h
    rcases List.mem_cons.mp hm with hm | hm
    · exact hm ▸ h.1.2
    · exact ih h.2 hm

theorem wfB_arr_elems {cs : List DVal} (h : wfB (.arr cs) = true) : wfArrB cs = true := by
  simp only [wfB, Bool.and_eq_true] at h
  exact h.1

theorem wfB_table_entries {es : List (ByteStr × DVal)} (h : wfB (.table es) = true) :
    wfTblB es = true := by
  simp only [wfB, Bool.and_eq_true] at h
  exact h.1

theorem wfB_table_nodup {es : List (ByteStr × DVal)} (h : wfB (.table es) = true) :
    (keysOf es).Nodup := by
  simp only [wfB, Bool.and_eq_true] at h
  exact nodupKeysB_iff.mp h.2

/-! ## Correctness of the serializer with respect to the spec op stream -/

theorem canonT_length (es : List (ByteStr × DVal)) : (canonT es).length = es.length := by
  rw [canonT, (List.perm_insertionSort keyLe (canonTbl es)).length_eq, canonTbl_eq_map,
    List.length_map]

theorem canonArr_length (cs : List DVal) : (canonArr cs).length = cs.length := by
  rw [canonArr_eq_map, List.length_map]

theorem value_to_bin_isSome (fuel : Nat) :
    ∀ (key : Option ByteStr) (v : DVal), szVal v ≤ fuel →
      (value_to_bin_config fuel key v).isSome = true := by
  induction fuel with
  | zero =>
    intro key v h
    have := szVal_pos v
    omega
  | succ fuel ih =>
    have harr : ∀ cs : List DVal, (∀ c ∈ cs, szVal c ≤ fuel) →
        (array_to_bin_config fuel cs).isSome = true := by
      intro cs
      induction cs with
      | nil => intro _; simp [array_to_bin_config]
      | cons c cs ihl =>
        intro hm
        rcases Option.isSome_iff_exists.mp (ih none c (hm c (by simp))) with ⟨a, ha⟩
        rcases Option.isSome_iff_exists.mp (ihl (fun x hx => hm x (by simp [hx]))) with ⟨b, hb⟩
        simp [array_to_bin_config, ha, hb]
    have htbl : ∀ (es : List (ByteStr × DVal)), szTbl es ≤ fuel + 1 →
        ∀ ks : List ByteStr, (∀ k ∈ ks, k ∈ keysOf es) →
        (tblGo fuel es ks).isSome = true := by
      intro es hes ks
      induction ks with
      | nil => intro _; simp [tblGo]
      | cons k ks ihl =>
        intro hm
        have hk := lookupB_isSome_of_mem (hm k (by simp))
        rcases Option.isSome_iff_exists.mp hk with ⟨v, hv⟩
        have hsv : szVal v ≤ fuel := by
          have := lookupB_sz hv
          omega
        rcases Option.isSome_iff_exists.mp (ih (some k) v hsv) with ⟨a, ha⟩
        rcases Option.isSome_iff_exists.mp (ihl (fun x hx => hm x (by simp [hx]))) with ⟨b, hb⟩
        simp [tblGo, hv, ha, hb]
    intro key v h
    cases v with
    | bool b => simp [value_to_bin_config]
    | i64 n => simp [value_to_bin_config]
    | f64 x => simp [value_to_bin_config]
    | str s => simp [value_to_bin_config]
    | arr cs =>
      have hcs : szArr cs ≤ fuel := by simp [szVal] at h; omega
      have h1 := harr cs (fun c hc => by have := szArr_mem hc; omega)
      rcases Option.isSome_iff_exists.mp h1 with ⟨ops, hops⟩
      simp [value_to_bin_config, hops]
    | table es =>
      have hes : szTbl es ≤ fuel := by simp [szVal] at h; omega
      have h1 := htbl es (by omega) (List.insertionSort bLe (keysOf es))
        (fun k hk => (List.perm_insertionSort bLe (keysOf es)).mem_iff.mp hk)
      rcases Option.isSome_iff_exists.mp h1 with ⟨ops, hops⟩
      simp [value_to_bin_config, table_to_bin_config, hops]

theorem tblGo_eq {fuel : Nat} {es : List (ByteStr × DVal)} :
    ∀ ks : List ByteStr,
      (∀ k ∈ ks, ∃ v, lookupB k es = some v ∧
        value_to_bin_config fuel (some k) v = some (opsVal (some k) (canon v))) →
      tblGo fuel es ks = some (opsTbl (ks.map (fun k => (k, canon (getV k es))))) := by
  intro ks
  induction ks with
  | nil => intro _; simp [tblGo, opsTbl]
  | cons k ks ihl =>
    intro hm
    rcases hm k (by simp) with ⟨v, hv, hval⟩
    simp only [tblGo, hv, hval, ihl (fun x hx => hm x (by simp [hx]))]
    simp [opsTbl, getV, hv]

theorem value_to_bin_eq : ∀ (fuel : Nat) (key : Option ByteStr) (v : DVal),
    wfB v = true → szVal v ≤ fuel →
    value_to_bin_config fuel key v = some (opsVal key (canon v)) := by
  intro fuel
  induction fuel with
  | zero =>
    intro key v _ h
    have := szVal_pos v
    omega
  | succ fuel ih =>
    have harr : ∀ cs : List DVal, (∀ c ∈ cs, wfB c = true ∧ szVal c ≤ fuel) →
        array_to_bin_config fuel cs = some (opsArr (canonArr cs)) := by
      intro cs
      induction cs with
      | nil => intro _; simp [array_to_bin_config, canonArr, opsArr]
      | cons c cs ihl =>
        intro hm
        have h1 := ih none c (hm c (by simp)).1 (hm c (by simp)).2
        simp only [array_to_bin_config, h1, ihl (fun x hx => hm x (by simp [hx]))]
        simp [canonArr, opsArr]
    intro key v hwf h
    cases v with
    | bool b => simp [value_to_bin_config, canon, opsVal]
    | i64 n => simp [value_to_bin_config, canon, opsVal]
    | f64 x => simp [value_to_bin_config, canon, opsVal]
    | str s => simp [value_to_bin_config, canon, opsVal]
    | arr cs =>
      have hcs : szArr cs ≤ fuel := by simp [szVal] at h; omega
      have hwfa := wfB_arr_elems hwf
      have h1 := harr cs (fun c hc =>
        ⟨wfArrB_mem hwfa hc, by have := szArr_mem hc; omega⟩)
      simp only [value_to_bin_config, h1, canon, opsVal]
      simp [canonArr_length]
    | table es =>
      have hes : szTbl es ≤ fuel := by simp [szVal] at h; omega
      have hnd := wfB_table_nodup hwf
      have hwft := wfB_table_entries hwf
      have h1 : tblGo fuel es (List.insertionSort bLe (keysOf es)) =
          some (opsTbl ((List.insertionSort bLe (keysOf es)).map
            (fun k => (k, canon (getV k es))))) := by
        apply tblGo_eq
        intro k hk
        have hkm : k ∈ keysOf es := (List.perm_insertionSort bLe (keysOf es)).mem_iff.mp hk
        rcases Option.isSome_iff_exists.mp (lookupB_isSome_of_mem hkm) with ⟨v, hv⟩
        have hsv : szVal v ≤ fuel := by
          have := lookupB_sz hv
          omega
        exact ⟨v, hv, ih (some k) v (wfTblB_mem hwft (lookupB_mem hv)) hsv⟩
      rw [← canonT_eq_sorted_keys_map hnd] at h1
      simp only [value_to_bin_config, table_to_bin_config, h1, canon_table_def, opsVal]
      simp [canonT_length]

theorem table_to_bin_eq {fuel : Nat} {es : List (ByteStr × DVal)}
    (hwf : wfB (.table es) = true) (hfuel : szVal (DVal.table es) ≤ fuel + 1) :
    table_to_bin_config fuel es = some (opsTbl (canonT es)) := by
  have h := value_to_bin_eq (fuel + 1) none (.table es) hwf hfuel
  simp only [value_to_bin_config, canon_table_def, opsVal] at h
  rcases htb : table_to_bin_config fuel es with _ | ops
  · rw [htb] at h; cases h
  · rw [htb] at h
    simp only [Option.some.injEq, List.cons_eq_cons, List.append_left_inj] at h
    exact congrArg some h.2

/-! ## Counting `end()` calls -/

theorem countEnd_append (a b : List WOp) : countEnd (a ++ b) = countEnd a + countEnd b := by
  simp [countEnd, List.filter_append]

mutual
theorem countEnd_opsVal : ∀ (key : Option ByteStr) (v : DVal),
    countEnd (opsVal key v) = compC v
  | _, .bool _ => by simp [opsVal, countEnd, isEndOp, compC]
  | _, .i64 _ => by simp [opsVal, countEnd, isEndOp, compC]
  | _, .f64 _ => by simp [opsVal, countEnd, isEndOp, compC]
  | _, .str _ => by simp [opsVal, countEnd, isEndOp, compC]
  | key, .arr cs => by
    have h := countEnd_opsArr cs
    simp only [opsVal, compC]
    rw [show WOp.array key cs.length :: opsArr cs ++ [WOp.endOp] =
      [WOp.array key cs.length] ++ (opsArr cs ++ [WOp.endOp]) from rfl]
    rw [countEnd_append, countEnd_append, h]
    simp [countEnd, isEndOp]
    omega
  | key, .table es => by
    have h := countEnd_opsTbl es
    simp only [opsVal, compC]
    rw [show WOp.table key es.length :: opsTbl es ++ [WOp.endOp] =
      [WOp.table key es.length] ++ (opsTbl es ++ [WOp.endOp]) from rfl]
    rw [countEnd_append, countEnd_append, h]
    simp [countEnd, isEndOp]
    omega

theorem countEnd_opsArr : ∀ (cs : List DVal), countEnd (opsArr cs) = compCArr cs
  | [] => by simp [opsArr, compCArr, countEnd]
  | c :: cs => by
    rw [opsArr, countEnd_append, countEnd_opsVal none c, countEnd_opsArr cs, compCArr]

theorem countEnd_opsTbl : ∀ (es : List (ByteStr × DVal)), countEnd (opsTbl es) = compCTbl es
  | [] => by simp [opsTbl, compCTbl, countEnd]
  | e :: es => by
    rw [opsTbl, countEnd_append, countEnd_opsVal (some e.1) e.2, countEnd_opsTbl es, compCTbl]
end

theorem compCArr_eq_sum (cs : List DVal) : compCArr cs = (cs.map compC).sum := by
  induction cs with
  | nil => rfl
  | cons c cs ih => simp [compCArr, ih]

theorem compCTbl_eq_sum (es : List (ByteStr × DVal)) :
    compCTbl es = (es.map (fun e => compC e.2)).sum := by
  induction es with
  | nil => rfl
  | cons e es ih => simp [compCTbl, ih]

mutual
theorem compC_canon : ∀ v : DVal, compC (canon v) = compC v
  | .bool _ => rfl
  | .i64 _ => rfl
  | .f64 _ => rfl
  | .str _ => rfl
  | .arr cs => by simp [canon, compC, compCArr_canon cs]
  | .table es => by
    have hperm := List.perm_insertionSort keyLe (canonTbl es)
    have hsum : compCTbl (List.insertionSort keyLe (canonTbl es)) = compCTbl (canonTbl es) := by
      rw [compCTbl_eq_sum, compCTbl_eq_sum]
      exact (hperm.map _).sum_eq
    simp [canon, compC, hsum, compCTbl_canon es]

theorem compCArr_canon : ∀ cs : List DVal, compCArr (canonArr cs) = compCArr cs
  | [] => rfl
  | c :: cs => by simp [canonArr, compCArr, compC_canon c, compCArr_canon cs]

theorem compCTbl_canon : ∀ es : List (ByteStr × DVal), compCTbl (canonTbl es) = compCTbl es
  | [] => rfl
  | e :: es => by simp [canonTbl, compCTbl, compC_canon e.2, compCTbl_canon es]
end

theorem compCTbl_canonT (es : List (ByteStr × DVal)) : compCTbl (canonT es) = compCTbl es := by
  rw [canonT, compCTbl_eq_sum,
    ((List.perm_insertionSort keyLe (canonTbl es)).map (fun e => compC e.2)).sum_eq,
    ← compCTbl_eq_sum, compCTbl_canon]

/-! ## Claim C3 and claim C10 -/

/-- **C3**: serializing a dynamic tree to binary recurses the tree; for
every table the keys are collected into a vector, sorted (byte-
lexicographically), and the entries are emitted in that sorted order; for
every array the elements are emitted in index order; and the writer's
`end()` is called exactly once at the close of every array and every
table.  Formally: the call stream of `table_to_bin_config` is exactly the
spec-shaped stream `opsTbl` of the recursively key-sorted tree `canonT es`
(tables emitted in sorted key order at every level, arrays in index
order, one trailing `end` per composite value by construction of
`opsVal`); the root entry list is sorted; and the number of emitted
`end()` calls equals the number of composite values strictly inside the
root table. -/
theorem serializer_sorted_structure (es : List (ByteStr × DVal)) (fuel : Nat)
    (hwf : wfB (.table es) = true) (hfuel : szVal (DVal.table es) ≤ fuel + 1) :
    table_to_bin_config fuel es = some (opsTbl (canonT es)) ∧
    List.Sorted keyLe (canonT es) ∧
    countEnd (opsTbl (canonT es)) = compCTbl es := by
  refine ⟨table_to_bin_eq hwf hfuel, ?_, ?_⟩
  · exact List.sorted_insertionSort keyLe (canonTbl es)
  · rw [countEnd_opsTbl, compCTbl_canonT]

/-- Example table for the C3 witness: two keys out of order, one nested
table and one nested array. -/
def tC3 : List (ByteStr × DVal) :=
  [([98], .arr [.i64 5, .i64 6]), ([97], .table [([99], .bool true)])]

/-- Witness for C3 at a concrete table. -/
theorem serializer_sorted_structure_witness :
    wfB (.table tC3) = true ∧ szVal (DVal.table tC3) ≤ 500 + 1 ∧
      (table_to_bin_config 500 tC3 = some (opsTbl (canonT tC3)) ∧
        List.Sorted keyLe (canonT tC3) ∧
        countEnd (opsTbl (canonT tC3)) = compCTbl tC3) :=
  ⟨by decide, by decide, serializer_sorted_structure tC3 500 (by decide) (by decide)⟩

/-- **C10**: during serialization of a table, looking up each key obtained
from that same table's iterator succeeds — the `get(key)` following
`iter()` in `table_to_bin_config` never returns an error, so the `unwrap`
cannot panic — and consequently the serialization of the table itself
never hits the panic, for every dynamic table. -/
theorem table_get_after_iter_succeeds (es : List (ByteStr × DVal)) (fuel : Nat)
    (hfuel : szVal (DVal.table es) ≤ fuel) :
    (∀ k ∈ List.insertionSort bLe (keysOf es), (lookupB k es).isSome = true) ∧
    (table_to_bin_config fuel es).isSome = true := by
  constructor
  · intro k hk
    exact lookupB_isSome_of_mem ((List.perm_insertionSort bLe (keysOf es)).mem_iff.mp hk)
  · have h := value_to_bin_isSome (fuel + 1) none (.table es) (le_trans hfuel (by omega))
    rcases htb : table_to_bin_config fuel es with _ | ops
    · simp [value_to_bin_config, htb] at h
    · rfl

/-! ## Canonicalization respects value equality -/

instance : IsAntisymm ByteStr bLe := ⟨fun _ _ h₁ h₂ => lexLe_antisymm h₁ h₂⟩

mutual
theorem VEq_refl : ∀ v : DVal, VEq v v
  | .bool b => .bool b
  | .i64 n => .i64 n
  | .f64 x => .f64 x
  | .str s => .str s
  | .arr cs => VEq.arr cs cs rfl (fun i v₁ v₂ h₁ h₂ => by
      rw [h₁] at h₂
      injection h₂ with h
      subst h
      exact VEq_refl_arr cs v₁ (List.get?_mem h₁))
  | .table es => VEq.table es es (List.Perm.refl _) (fun k v₁ v₂ h₁ h₂ => by
      rw [h₁] at h₂
      injection h₂ with h
      subst h
      exact VEq_refl_tbl es (k, v₁) (lookupB_mem h₁))

theorem VEq_refl_arr : ∀ (cs : List DVal), ∀ v ∈ cs, VEq v v
  | [] => fun v hv => absurd hv (List.not_mem_nil v)
  | c :: cs => fun v hv =>
    (List.mem_cons.mp hv).elim (fun h => by rw [h]; exact VEq_refl c)
      (fun h => VEq_refl_arr cs v h)

theorem VEq_refl_tbl : ∀ (es : List (ByteStr × DVal)), ∀ e ∈ es, VEq e.2 e.2
  | [] => fun e he => absurd he (List.not_mem_nil e)
  | x :: es => fun e he =>
    (List.mem_cons.mp he).elim (fun h => by rw [h]; exact VEq_refl x.2)
      (fun h => VEq_refl_tbl es e h)
end

/-- Two dynamic tables whose entry lists are permutations of each other
(the same logical table built in different insertion orders) are
value-equal. -/
theorem VEq_table_perm {es₁ es₂ : List (ByteStr × DVal)}
    (hnd : (keysOf es₁).Nodup) (hperm : es₁.Perm es₂) : VEq (.table es₁) (.table es₂) := by
  refine VEq.table es₁ es₂ (hperm.map Prod.fst) ?_
  intro k v₁ v₂ h₁ h₂
  have hm₂ : (k, v₁) ∈ es₂ := hperm.mem_iff.mp (lookupB_mem h₁)
  have hnd₂ : (keysOf es₂).Nodup := (hperm.map Prod.fst).nodup_iff.mp hnd
  rw [lookupB_of_mem_nodup hnd₂ hm₂] at h₂
  injection h₂ with h
  subst h
  exact VEq_refl v₁

/-- Canonicalization maps value-equal well-formed trees to the same tree:
the heart of writer canonicality. -/
theorem canon_eq_of_veq : ∀ {t₁ t₂ : DVal}, VEq t₁ t₂ →
    wfB t₁ = true → wfB t₂ = true → canon t₁ = canon t₂ := by
  intro t₁ t₂ hv
  induction hv with
  | bool b => intro _ _; rfl
  | i64 n => intro _ _; rfl
  | f64 x => intro _ _; rfl
  | str s => intro _ _; rfl
  | arr cs₁ cs₂ hlen hvv ih =>
    intro h₁ h₂
    simp only [canon, canonArr_eq_map]
    congr 1
    apply List.ext_get?
    intro i
    rw [List.get?_eq_getElem?, List.get?_eq_getElem?, List.getElem?_map, List.getElem?_map]
    rcases hg₁ : cs₁.get? i with _ | v₁
    · have hge : cs₂.get? i = none := by
        rw [List.get?_eq_none] at hg₁ ⊢
        omega
      rw [List.get?_eq_getElem?] at hg₁ hge
      rw [hg₁, hge]
    · rcases hg₂ : cs₂.get? i with _ | v₂
      · rw [List.get?_eq_none] at hg₂
        have hgn : cs₁.get? i = none := by
          rw [List.get?_eq_none]
          omega
        rw [hgn] at hg₁
        cases hg₁
      · have hc := ih i v₁ v₂ hg₁ hg₂
          (wfArrB_mem (wfB_arr_elems h₁) (List.get?_mem hg₁))
          (wfArrB_mem (wfB_arr_elems h₂) (List.get?_mem hg₂))
        rw [List.get?_eq_getElem?] at hg₁ hg₂
        rw [hg₁, hg₂]
        simp [hc]
  | table es₁ es₂ hperm hvv ih =>
    intro h₁ h₂
    have hnd₁ := wfB_table_nodup h₁
    have hnd₂ := wfB_table_nodup h₂
    simp only [canon_table_def]
    congr 1
    rw [canonT_eq_sorted_keys_map hnd₁, canonT_eq_sorted_keys_map hnd₂]
    have hsorted : List.insertionSort bLe (keysOf es₁) = List.insertionSort bLe (keysOf es₂) :=
      List.eq_of_perm_of_sorted
        (((List.perm_insertionSort bLe (keysOf es₁)).trans hperm).trans
          (List.perm_insertionSort bLe (keysOf es₂)).symm)
        (List.sorted_insertionSort bLe (keysOf es₁))
        (List.sorted_insertionSort bLe (keysOf es₂))
    rw [hsorted]
    apply List.map_congr_left
    intro k hk
    have hk₂ : k ∈ keysOf es₂ := (List.perm_insertionSort bLe (keysOf es₂)).mem_iff.mp hk
    have hk₁ : k ∈ keysOf es₁ := hperm.mem_iff.mpr hk₂
    rcases Option.isSome_iff_exists.mp (lookupB_isSome_of_mem hk₁) with ⟨v₁, hv₁⟩
    rcases Option.isSome_iff_exists.mp (lookupB_isSome_of_mem hk₂) with ⟨v₂, hv₂⟩
    have hc := ih k v₁ v₂ hv₁ hv₂
      (wfTblB_mem (wfB_table_entries h₁) (lookupB_mem hv₁))
      (wfTblB_mem (wfB_table_entries h₂) (lookupB_mem hv₂))
    simp [getV, hv₁, hv₂, hc]

/-! ## The binary config writer, modelled from the spec (§4.1, §4.3)

`BinConfigWriter` is not under `src/`.  It is modelled from the spec as a
consumer of the op stream: construction records the root entry count, the
push calls are recorded in order, and `finish()` (a) re-plays the stream
against the writer rules of §4.3 (keys required iff the parent is a
table, keys non-empty and strictly ascending within a table, array
elements type-homogeneous after the first element fixes the tag, exactly
`len` children per open container before `end()`, nothing after the root
count is satisfied), and (b) lays the resulting tree out canonically per
§4.1 (12-byte header; 16-byte entries; children depth-first; keys and
string values appended after all entry arrays in first-seen order,
deduplicated by byte equality — string interning; all length/offset
fields `u32`, with `Overflow` if a field does not fit).  The spec fixes
the output, not the strategy ("two passes over the logical tree" is
explicitly allowed, §9), so the replay-then-layout model is faithful to
the spec's observable behaviour. -/

inductive BWErr where
  | emptyRootTable
  | keyExpected
  | keyNotExpected
  | emptyKey
  | keysNotSorted
  | mixedArray
  | tooFewEntries
  | tooManyEntries
  | notFinished
  | overflow
deriving DecidableEq

/-- Writer state: the root entry count and the recorded op stream. -/
structure BinConfigWriter where
  rootLen : Nat
  ops : List WOp

/-- Modelled from the spec: `BinConfigWriter::new` — takes the root
table's entry count; a root count of zero is the `EmptyRootTable` error. -/
def BinConfigWriter.new (n : Nat) : Except BWErr BinConfigWriter :=
  if n = 0 then .error .emptyRootTable else .ok ⟨n, []⟩

/-- Modelled from the spec: feeding a sequence of push calls to the writer. -/
def BinConfigWriter.push (w : BinConfigWriter) (ops : List WOp) : BinConfigWriter :=
  ⟨w.rootLen, w.ops ++ ops⟩

/-- The payload of a non-`end` op: a scalar leaf, or a container header. -/
inductive OpHead where
  | scalar (v : DVal)
  | cArr (len : Nat)
  | cTbl (len : Nat)

/-- Splits an op into its key and payload (`none` for `end()`). -/
def headOf : WOp → Option (Option ByteStr × OpHead)
  | .bool k b => some (k, .scalar (.bool b))
  | .i64 k n => some (k, .scalar (.i64 n))
  | .f64 k x => some (k, .scalar (.f64 x))
  | .string k s => some (k, .scalar (.str s))
  | .array k n => some (k, .cArr n)
  | .table k n => some (k, .cTbl n)
  | .endOp => none

/-- Key-order check against the previously written key of the open table. -/
def keyOkAfter (lastKey : Option ByteStr) (k : ByteStr) : Bool :=
  match lastKey with
  | none => true
  | some lk => ltBytes lk k

/-- Type tag of an op payload. -/
def tagOfHead : OpHead → Nat
  | .scalar v => tagOf v
  | .cArr _ => 4
  | .cTbl _ => 5

mutual
/-- Replay of the op stream inside an open table expecting `n` more
entries: enforces `KeyExpected`, `EmptyKey`, `KeysNotSorted`,
`TooFewEntries` / `TooManyEntries`, and reconstructs the entries. -/
def parseTbl : Nat → Nat → Option ByteStr → List WOp →
    Except BWErr (List (ByteStr × DVal) × List WOp)
  | 0, _, _, _ => .error .notFinished
  | _ + 1, 0, _, ops => .ok ([], ops)
  | _ + 1, _ + 1, _, [] => .error .tooFewEntries
  | fuel + 1, n + 1, lastKey, op :: rest =>
    match headOf op with
    | none => .error .tooFewEntries
    | some (none, _) => .error .keyExpected
    | some (some k, hd) =>
      if k = [] then .error .emptyKey
      else if keyOkAfter lastKey k = false then .error .keysNotSorted
      else
        match hd with
        | .scalar v =>
          (parseTbl fuel n (some k) rest).map (fun p => ((k, v) :: p.1, p.2))
        | .cArr len =>
          match parseArr fuel len none rest with
          | .error e => .error e
          | .ok (cs, r) =>
            match r with
            | .endOp :: r₂ =>
              (parseTbl fuel n (some k) r₂).map (fun p => ((k, .arr cs) :: p.1, p.2))
            | _ => .error .tooManyEntries
        | .cTbl len =>
          match parseTbl fuel len none rest with
          | .error e => .error e
          | .ok (es, r) =>
            match r with
            | .endOp :: r₂ =>
              (parseTbl fuel n (some k) r₂).map (fun p => ((k, .table es) :: p.1, p.2))
            | _ => .error .tooManyEntries
termination_by fuel _ _ _ => (fuel, 0)
decreasing_by
  all_goals apply Prod.Lex.left
  all_goals omega

/-- Replay of the op stream inside an open array expecting `n` more
elements: enforces `KeyNotExpected` and `MixedArray` (the first element
sets the tag), and reconstructs the elements. -/
def parseArr : Nat → Nat → Option Nat → List WOp →
    Except BWErr (List DVal × List WOp)
  | 0, _, _, _ => .error .notFinished
  | _ + 1, 0, _, ops => .ok ([], ops)
  | _ + 1, _ + 1, _, [] => .error .tooFewEntries
  | fuel + 1, n + 1, elemTag, op :: rest =>
    match headOf op with
    | none => .error .tooFewEntries
    | some (some _, _) => .error .keyNotExpected
    | some (none, hd) =>
      match elemTag with
      | some t₀ =>
        if tagOfHead hd ≠ t₀ then .error .mixedArray
        else parseArrElem fuel n (some t₀) hd rest
      | none => parseArrElem fuel n (some (tagOfHead hd)) hd rest
termination_by fuel _ _ _ => (fuel, 0)
decreasing_by
  all_goals apply Prod.Lex.left
  all_goals omega

/-- Parses one keyless element (scalar or container) and continues. -/
def parseArrElem : Nat → Nat → Option Nat → OpHead → List WOp →
    Except BWErr (List DVal × List WOp)
  | fuel, n, elemTag, .scalar v, rest =>
    (parseArr fuel n elemTag rest).map (fun p => (v :: p.1, p.2))
  | fuel, n, elemTag, .cArr len, rest =>
    match parseArr fuel len none rest with
    | .error e => .error e
    | .ok (cs, r) =>
      match r with
      | .endOp :: r₂ => (parseArr fuel n elemTag r₂).map (fun p => (.arr cs :: p.1, p.2))
      | _ => .error .tooManyEntries
  | fuel, n, elemTag, .cTbl len, rest =>
    match parseTbl fuel len none rest with
    | .error e => .error e
    | .ok (es, r) =>
      match r with
      | .endOp :: r₂ => (parseArr fuel n elemTag r₂).map (fun p => (.table es :: p.1, p.2))
      | _ => .error .tooManyEntries
termination_by fuel _ _ _ _ => (fuel, 1)
decreasing_by
  all_goals apply Prod.Lex.right
  all_goals omega
end

/-! ## Canonical layout (§4.1) -/

mutual
/-- Size in bytes of all entry arrays of the subtree rooted at a value
(the value's own entry array plus, depth-first, its descendants'). -/
def subSize : DVal → Nat
  | .bool _ => 0
  | .i64 _ => 0
  | .f64 _ => 0
  | .str _ => 0
  | .arr cs => 16 * cs.length + subSizeArr cs
  | .table es => 16 * es.length + subSizeTbl es

/-- Total subtree entry-array size of an array's elements. -/
def subSizeArr : List DVal → Nat
  | [] => 0
  | c :: cs => subSize c + subSizeArr cs

/-- Total subtree entry-array size of a table's entries. -/
def subSizeTbl : List (ByteStr × DVal) → Nat
  | [] => 0
  | e :: es => subSize e.2 + subSizeTbl es
end

mutual
/-- Strings of a value's subtree, in the order the streaming writer first
sees them (keys at their entry, string payloads at their entry, then the
contents of the container, depth-first). -/
def strsOfVal : DVal → List ByteStr
  | .bool _ => []
  | .i64 _ => []
  | .f64 _ => []
  | .str s => [s]
  | .arr cs => strsOfArr cs
  | .table es => strsOfTbl es

/-- Strings of an array's elements in emission order. -/
def strsOfArr : List DVal → List ByteStr
  | [] => []
  | c :: cs => strsOfVal c ++ strsOfArr cs

/-- Strings of a table's entries in emission order (key first). -/
def strsOfTbl : List (ByteStr × DVal) → List ByteStr
  | [] => []
  | e :: es => e.1 :: (strsOfVal e.2 ++ strsOfTbl es)
end

/-- First-occurrence deduplication: the string interning table, in
first-seen order (`seen` accumulates the strings already interned). -/
def dedupGo (seen : List ByteStr) : List ByteStr → List ByteStr
  | [] => []
  | s :: ss => if seen.contains s then dedupGo seen ss else s :: dedupGo (s :: seen) ss

/-- The deduplicated string heap, in first-seen order. -/
def dedupFirst (l : List ByteStr) : List ByteStr := dedupGo [] l

/-- Offset (in bytes) of a string within the heap: the sum of the lengths
of the strings stored before its first occurrence. -/
def offIn : List ByteStr → ByteStr → Nat
  | [], _ => 0
  | t :: ts, s => if t = s then 0 else t.length + offIn ts s

/-- The 8-byte payload of an entry record (§4.1), given the string-offset
map `σ` and the offset `childOff` at which a child container's entry
array is placed. -/
def payload8 (σ : ByteStr → Nat) : DVal → Nat → List Nat
  | .bool b, _ => u64le (if b then 1 else 0)
  | .i64 n, _ => u64le (i64ToU64 n)
  | .f64 x, _ => u64le x
  | .str s, _ => u32le s.length ++ u32le (σ s)
  | .arr cs, off => u32le cs.length ++ u32le (if cs.length = 0 then 0 else off)
  | .table es, off => u32le es.length ++ u32le (if es.length = 0 then 0 else off)

/-- One fixed 16-byte entry record (§4.1): `type_and_key_len` (low 28 bits
key length, high 4 bits tag), `key_offset`, 8-byte payload. -/
def entryRecord (σ : ByteStr → Nat) (key : Option ByteStr) (v : DVal) (childOff : Nat) :
    List Nat :=
  u32le ((match key with | none => 0 | some k => k.length) + 2 ^ 28 * tagOf v) ++
  u32le (match key with | none => 0 | some k => σ k) ++
  payload8 σ v childOff

/-- Entry records of an array's elements; `childOff` is the running
offset where the next composite child's entry array will be placed. -/
def emitArrRecords (σ : ByteStr → Nat) : List DVal → Nat → List Nat
  | [], _ => []
  | c :: cs, childOff => entryRecord σ none c childOff ++ emitArrRecords σ cs (childOff + subSize c)

/-- Entry records of a table's entries. -/
def emitTblRecords (σ : ByteStr → Nat) : List (ByteStr × DVal) → Nat → List Nat
  | [], _ => []
  | e :: es, childOff =>
    entryRecord σ (some e.1) e.2 childOff ++ emitTblRecords σ es (childOff + subSize e.2)

mutual
/-- Bytes of all entry arrays of the subtree of `v`, whose own entry
array is placed at offset `base`: the records, then the children's
subtrees depth-first. -/
def emitVal (σ : ByteStr → Nat) : DVal → Nat → List Nat
  | .bool _, _ => []
  | .i64 _, _ => []
  | .f64 _, _ => []
  | .str _, _ => []
  | .arr cs, base =>
    emitArrRecords σ cs (base + 16 * cs.length) ++ emitArrRegions σ cs (base + 16 * cs.length)
  | .table es, base =>
    emitTblRecords σ es (base + 16 * es.length) ++ emitTblRegions σ es (base + 16 * es.length)

/-- Subtree regions of an array's elements, placed sequentially. -/
def emitArrRegions (σ : ByteStr → Nat) : List DVal → Nat → List Nat
  | [], _ => []
  | c :: cs, childOff => emitVal σ c childOff ++ emitArrRegions σ cs (childOff + subSize c)

/-- Subtree regions of a table's entries, placed sequentially. -/
def emitTblRegions (σ : ByteStr → Nat) : List (ByteStr × DVal) → Nat → List Nat
  | [], _ => []
  | e :: es, childOff => emitVal σ e.2 childOff ++ emitTblRegions σ es (childOff + subSize e.2)
end

/-- The string heap of a root entry list. -/
def heapOf (rs : List (ByteStr × DVal)) : List ByteStr := dedupFirst (strsOfTbl rs)

/-- Heap size in bytes. -/
def heapSize (rs : List (ByteStr × DVal)) : Nat := ((heapOf rs).map List.length).sum

/-- Offset at which the string heap starts: 12-byte header plus all entry
arrays. -/
def heapStart (rs : List (ByteStr × DVal)) : Nat := 12 + 16 * rs.length + subSizeTbl rs

/-- Total buffer length, recorded in the header. -/
def totalLen (rs : List (ByteStr × DVal)) : Nat := heapStart rs + heapSize rs

/-- String-offset map of a layout: heap start plus the in-heap offset. -/
def sigmaOf (rs : List (ByteStr × DVal)) : ByteStr → Nat :=
  fun s => heapStart rs + offIn (heapOf rs) s

/-- The magic bytes at offset 0 (§4.1). -/
def magicBytes : List Nat := [0x67, 0x66, 0x6E, 0x62]

/-- The canonical buffer of a (already canonically sorted) root entry
list: header, depth-first entry arrays, string heap. -/
def layoutBytes (rs : List (ByteStr × DVal)) : List Nat :=
  magicBytes ++ u32le (totalLen rs) ++ u32le rs.length ++
    emitVal (sigmaOf rs) (.table rs) 12 ++ (heapOf rs).flatten

mutual
/-- Checks the size limits the writer enforces (`Overflow`): key lengths
fit the 28-bit field, string lengths fit `u32`.  Entry counts and offsets
are bounded by the separate total-length check (a container of `n`
entries occupies `16 n` bytes, so `n` fits `u32` whenever the total
does). -/
def sizeOkB : DVal → Bool
  | .bool _ => true
  | .i64 _ => true
  | .f64 _ => true
  | .str s => decide (s.length < 2 ^ 32)
  | .arr cs => sizeOkArrB cs
  | .table es => sizeOkTblB es

/-- Size limits over an array's elements. -/
def sizeOkArrB : List DVal → Bool
  | [] => true
  | c :: cs => sizeOkB c && sizeOkArrB cs

/-- Size limits over a table's entries (key length fits 28 bits). -/
def sizeOkTblB : List (ByteStr × DVal) → Bool
  | [] => true
  | e :: es => decide (e.1.length < 2 ^ 28) && sizeOkB e.2 && sizeOkTblB es
end

/-- Modelled from the spec: `BinConfigWriter::finish` — replays the
recorded op stream against the writer rules, requires the stack to be
empty and the root count satisfied, checks the `u32` limits, and returns
the canonical buffer. -/
def BinConfigWriter.finish (w : BinConfigWriter) : Except BWErr (List Nat) :=
  match parseTbl (w.ops.length + 1) w.rootLen none w.ops with
  | .error e => .error e
  | .ok (rs, leftover) =>
    match leftover with
    | [] =>
      if sizeOkTblB rs && decide (rs.length < 2 ^ 32) && decide (totalLen rs < 2 ^ 32) then
        .ok (layoutBytes rs)
      else .error .overflow
    | _ :: _ => .error .tooManyEntries

/-! ## Canonical-form predicates and preservation under `canon` -/

/-- Keys strictly ascending, starting after an optional previous key. -/
def chainKeysB : Option ByteStr → List (ByteStr × DVal) → Bool
  | _, [] => true
  | none, e :: es => chainKeysB (some e.1) es
  | some lk, e :: es => ltBytes lk e.1 && chainKeysB (some e.1) es

mutual
/-- Every table of the value has strictly ascending keys (the shape
`canon` produces on well-formed trees, and the shape the writer demands). -/
def canonOkB : DVal → Bool
  | .bool _ => true
  | .i64 _ => true
  | .f64 _ => true
  | .str _ => true
  | .arr cs => canonOkArrB cs
  | .table es => chainKeysB none es && canonOkTblB es

/-- `canonOkB` over an array's elements. -/
def canonOkArrB : List DVal → Bool
  | [] => true
  | c :: cs => canonOkB c && canonOkArrB cs

/-- `canonOkB` over a table's entry values. -/
def canonOkTblB : List (ByteStr × DVal) → Bool
  | [] => true
  | e :: es => canonOkB e.2 && canonOkTblB es
end

theorem tagOf_canon (v : DVal) : tagOf (canon v) = tagOf v := by
  cases v <;> rfl

theorem wfTblB_iff {es : List (ByteStr × DVal)} : wfTblB es = true ↔
    ∀ e ∈ es, e.1 ≠ [] ∧ e.1.all (fun b => b < 256) = true ∧
      e.1.length < 2 ^ 28 ∧ wfB e.2 = true := by
  induction es with
  | nil => simp [wfTblB]
  | cons e es ih =>
    simp only [wfTblB, Bool.and_eq_true, decide_eq_true_eq, ih, List.mem_cons]
    constructor
    · rintro ⟨⟨⟨⟨h₁, h₂⟩, h₃⟩, h₄⟩, h₅⟩
      rintro x (hx | hx)
      · exact hx ▸ ⟨h₁, h₂, h₃, h₄⟩
      · exact h₅ x hx
    · intro h
      rcases h e (Or.inl rfl) with ⟨h₁, h₂, h₃, h₄⟩
      exact ⟨⟨⟨⟨h₁, h₂⟩, h₃⟩, h₄⟩, fun x hx => h x (Or.inr hx)⟩

theorem wfArrB_iff {cs : List DVal} : wfArrB cs = true ↔ ∀ c ∈ cs, wfB c = true := by
  induction cs with
  | nil => simp [wfArrB]
  | cons c cs ih =>
    simp only [wfArrB, Bool.and_eq_true, ih, List.mem_cons]
    constructor
    · rintro ⟨h₁, h₂⟩ x (hx | hx)
      · exact hx ▸ h₁
      · exact h₂ x hx
    · intro h
      exact ⟨h c (Or.inl rfl), fun x hx => h x (Or.inr hx)⟩

theorem canonOkTblB_iff {es : List (ByteStr × DVal)} : canonOkTblB es = true ↔
    ∀ e ∈ es, canonOkB e.2 = true := by
  induction es with
  | nil => simp [canonOkTblB]
  | cons e es ih =>
    simp only [canonOkTblB, Bool.and_eq_true, ih, List.mem_cons]
    constructor
    · rintro ⟨h₁, h₂⟩ x (hx | hx)
      · exact hx ▸ h₁
      · exact h₂ x hx
    · intro h
      exact ⟨h e (Or.inl rfl), fun x hx => h x (Or.inr hx)⟩

theorem canonOkArrB_iff {cs : List DVal} : canonOkArrB cs = true ↔
    ∀ c ∈ cs, canonOkB c = true := by
  induction cs with
  | nil => simp [canonOkArrB]
  | cons c cs ih =>
    simp only [canonOkArrB, Bool.and_eq_true, ih, List.mem_cons]
    constructor
    · rintro ⟨h₁, h₂⟩ x (hx | hx)
      · exact hx ▸ h₁
      · exact h₂ x hx
    · intro h
      exact ⟨h c (Or.inl rfl), fun x hx => h x (Or.inr hx)⟩

theorem homogB_canonArr (cs : List DVal) : homogB (canonArr cs) = homogB cs := by
  cases cs with
  | nil => rfl
  | cons c cs =>
    simp only [canonArr, homogB, canonArr_eq_map, List.all_map]
    congr 1
    funext v
    simp [tagOf_canon]

theorem keysOf_canonT (es : List (ByteStr × DVal)) :
    keysOf (canonT es) = List.insertionSort bLe (keysOf es) := by
  rw [canonT]
  rw [show keysOf (List.insertionSort keyLe (canonTbl es)) =
    (List.insertionSort keyLe (canonTbl es)).map Prod.fst from rfl]
  rw [map_fst_insertionSort]
  rw [show (canonTbl es).map Prod.fst = keysOf (canonTbl es) from rfl, keysOf_canonTbl]

/-- A pairwise key-sorted entry list with distinct keys is a strict
ascending chain after any strictly smaller previous key. -/
theorem chainKeysB_some : ∀ (es : List (ByteStr × DVal)) (lk : ByteStr),
    List.Pairwise keyLe es → (keysOf es).Nodup →
    (∀ e ∈ es, ltBytes lk e.1 = true) → chainKeysB (some lk) es = true := by
  intro es
  induction es with
  | nil => intro lk _ _ _; rfl
  | cons e es ih =>
    intro lk hp hnd hlt
    simp only [chainKeysB, Bool.and_eq_true]
    refine ⟨hlt e (by simp), ?_⟩
    rcases List.pairwise_cons.mp hp with ⟨hhead, htail⟩
    simp only [keysOf, List.map_cons, List.nodup_cons] at hnd
    apply ih e.1 htail hnd.2
    intro x hx
    have hle : leBytes e.1 x.1 = true := hhead x hx
    have hne : e.1 ≠ x.1 := by
      intro hcontra
      exact hnd.1 (hcontra ▸ List.mem_map.mpr ⟨x, hx, rfl⟩)
    rw [show ltBytes e.1 x.1 = lexLt e.1 x.1 from rfl, lexLt_iff_le_not_le]
    exact ⟨hle, fun hge => hne (lexLe_antisymm hle hge)⟩

/-- A pairwise key-sorted entry list with distinct keys is a strict
ascending chain. -/
theorem chainKeysB_none {es : List (ByteStr × DVal)}
    (hp : List.Pairwise keyLe es) (hnd : (keysOf es).Nodup) :
    chainKeysB none es = true := by
  cases es with
  | nil => rfl
  | cons e es =>
    simp only [chainKeysB]
    rcases List.pairwise_cons.mp hp with ⟨hhead, htail⟩
    simp only [keysOf, List.map_cons, List.nodup_cons] at hnd
    apply chainKeysB_some es e.1 htail hnd.2
    intro x hx
    have hle : leBytes e.1 x.1 = true := hhead x hx
    have hne : e.1 ≠ x.1 := by
      intro hcontra
      exact hnd.1 (hcontra ▸ List.mem_map.mpr ⟨x, hx, rfl⟩)
    rw [show ltBytes e.1 x.1 = lexLt e.1 x.1 from rfl, lexLt_iff_le_not_le]
    exact ⟨hle, fun hge => hne (lexLe_antisymm hle hge)⟩

mutual
theorem wfB_canon : ∀ v : DVal, wfB v = true → wfB (canon v) = true
  | .bool _ => fun h => h
  | .i64 _ => fun h => h
  | .f64 _ => fun h => h
  | .str _ => fun h => h
  | .arr cs => fun h => by
    simp only [wfB, Bool.and_eq_true] at h
    simp only [canon, wfB, Bool.and_eq_true]
    refine ⟨wfArrB_canon cs h.1, ?_⟩
    rw [homogB_canonArr]
    exact h.2
  | .table es => fun h => by
    simp only [wfB, Bool.and_eq_true] at h
    rw [canon_table_def]
    simp only [wfB, Bool.and_eq_true]
    refine ⟨?_, ?_⟩
    · have hc := wfTblB_canonTbl es h.1
      rw [wfTblB_iff] at hc ⊢
      intro e he
      exact hc e ((List.perm_insertionSort keyLe (canonTbl es)).mem_iff.mp he)
    · rw [nodupKeysB_iff, keysOf_canonT]
      exact (List.perm_insertionSort bLe (keysOf es)).nodup_iff.mpr (nodupKeysB_iff.mp h.2)

theorem wfArrB_canon : ∀ cs : List DVal, wfArrB cs = true → wfArrB (canonArr cs) = true
  | [] => fun h => h
  | c :: cs => fun h => by
    simp only [wfArrB, Bool.and_eq_true] at h
    simp only [canonArr, wfArrB, Bool.and_eq_true]
    exact ⟨wfB_canon c h.1, wfArrB_canon cs h.2⟩

theorem wfTblB_canonTbl : ∀ es : List (ByteStr × DVal),
    wfTblB es = true → wfTblB (canonTbl es) = true
  | [] => fun h => h
  | e :: es => fun h => by
    simp only [wfTblB, Bool.and_eq_true] at h
    simp only [canonTbl, wfTblB, Bool.and_eq_true]
    exact ⟨⟨⟨⟨h.1.1.1.1, h.1.1.1.2⟩, h.1.1.2⟩, wfB_canon e.2 h.1.2⟩, wfTblB_canonTbl es h.2⟩
end

mutual
theorem canonOkB_canon : ∀ v : DVal, wfB v = true → canonOkB (canon v) = true
  | .bool _ => fun _ => rfl
  | .i64 _ => fun _ => rfl
  | .f64 _ => fun _ => rfl
  | .str _ => fun _ => rfl
  | .arr cs => fun h => by
    simp only [wfB, Bool.and_eq_true] at h
    simp only [canon, canonOkB]
    exact canonOkArrB_canon cs h.1
  | .table es => fun h => by
    simp only [wfB, Bool.and_eq_true] at h
    rw [canon_table_def]
    simp only [canonOkB, Bool.and_eq_true]
    refine ⟨?_, ?_⟩
    · apply chainKeysB_none (List.sorted_insertionSort keyLe (canonTbl es))
      rw [show List.insertionSort keyLe (canonTbl es) = canonT es from rfl, keysOf_canonT]
      exact (List.perm_insertionSort bLe (keysOf es)).nodup_iff.mpr (nodupKeysB_iff.mp h.2)
    · rw [canonOkTblB_iff]
      intro e he
      have he₂ := (List.perm_insertionSort keyLe (canonTbl es)).mem_iff.mp he
      have hmem := canonOkTblB_canonTbl es h.1
      rw [canonOkTblB_iff] at hmem
      exact hmem e he₂

theorem canonOkArrB_canon : ∀ cs : List DVal,
    wfArrB cs = true → canonOkArrB (canonArr cs) = true
  | [] => fun _ => rfl
  | c :: cs => fun h => by
    simp only [wfArrB, Bool.and_eq_true] at h
    simp only [canonArr, canonOkArrB, Bool.and_eq_true]
    exact ⟨canonOkB_canon c h.1, canonOkArrB_canon cs h.2⟩

theorem canonOkTblB_canonTbl : ∀ es : List (ByteStr × DVal),
    wfTblB es = true → canonOkTblB (canonTbl es) = true
  | [] => fun _ => rfl
  | e :: es => fun h => by
    simp only [wfTblB, Bool.and_eq_true] at h
    simp only [canonTbl, canonOkTblB, Bool.and_eq_true]
    exact ⟨canonOkB_canon e.2 h.1.2, canonOkTblB_canonTbl es h.2⟩
end

/-- Tag admissibility of array elements against the writer's element-tag
state: with no tag recorded yet the list must be homogeneous; with a
recorded tag every element must carry it. -/
def tagOkB : Option Nat → List DVal → Bool
  | none, cs => homogB cs
  | some t, cs => cs.all (fun v => tagOf v == t)

theorem opsTbl_cons (e : ByteStr × DVal) (es : List (ByteStr × DVal)) :
    opsTbl (e :: es) = opsVal (some e.1) e.2 ++ opsTbl es := rfl

theorem opsArr_cons (c : DVal) (cs : List DVal) :
    opsArr (c :: cs) = opsVal none c ++ opsArr cs := rfl

/-- Replaying the spec-shaped op stream of a well-formed canonical tree
through the writer rules succeeds and reconstructs exactly the tree, with
the trailing ops untouched. -/
theorem parse_replay : ∀ fuel : Nat,
    (∀ (es : List (ByteStr × DVal)) (lastKey : Option ByteStr) (rest : List WOp),
      wfTblB es = true → canonOkTblB es = true → chainKeysB lastKey es = true →
      (opsTbl es).length + 1 ≤ fuel →
      parseTbl fuel es.length lastKey (opsTbl es ++ rest) = .ok (es, rest)) ∧
    (∀ (cs : List DVal) (tag : Option Nat) (rest : List WOp),
      wfArrB cs = true → canonOkArrB cs = true → tagOkB tag cs = true →
      (opsArr cs).length + 1 ≤ fuel →
      parseArr fuel cs.length tag (opsArr cs ++ rest) = .ok (cs, rest)) := by
  intro fuel
  induction fuel with
  | zero =>
    constructor
    · intro es lastKey rest _ _ _ hlen
      omega
    · intro cs tag rest _ _ _ hlen
      omega
  | succ fuel ih =>
    obtain ⟨ihT, ihA⟩ := ih
    constructor
    · -- tables
      intro es lastKey rest hwf hcok hchain hlen
      cases es with
      | nil => simp [opsTbl, parseTbl]
      | cons e es =>
        obtain ⟨k, v⟩ := e
        simp only [wfTblB, Bool.and_eq_true, decide_eq_true_eq] at hwf
        simp only [canonOkTblB, Bool.and_eq_true] at hcok
        have hk : k ≠ [] := hwf.1.1.1.1
        have hko : keyOkAfter lastKey k = true := by
          cases lastKey with
          | none => rfl
          | some lk =>
            simp only [chainKeysB, Bool.and_eq_true] at hchain
            simp [keyOkAfter, hchain.1]
        have hchain₂ : chainKeysB (some k) es = true := by
          cases lastKey with
          | none => exact hchain
          | some lk =>
            simp only [chainKeysB, Bool.and_eq_true] at hchain
            exact hchain.2
        rw [opsTbl_cons, List.append_assoc]
        simp only [List.length_cons]
        cases v with
        | bool b =>
          simp only [opsVal, List.singleton_append]
          simp only [parseTbl, headOf]
          rw [if_neg hk, if_neg (by simp [hko])]
          rw [ihT es (some k) rest hwf.2 hcok.2 hchain₂ (by
            simp only [opsTbl_cons, List.length_append, opsVal] at hlen ⊢
            simp at hlen
            omega)]
          rfl
        | i64 n =>
          simp only [opsVal, List.singleton_append]
          simp only [parseTbl, headOf]
          rw [if_neg hk, if_neg (by simp [hko])]
          rw [ihT es (some k) rest hwf.2 hcok.2 hchain₂ (by
            simp only [opsTbl_cons, List.length_append, opsVal] at hlen ⊢
            simp at hlen
            omega)]
          rfl
        | f64 x =>
          simp only [opsVal, List.singleton_append]
          simp only [parseTbl, headOf]
          rw [if_neg hk, if_neg (by simp [hko])]
          rw [ihT es (some k) rest hwf.2 hcok.2 hchain₂ (by
            simp only [opsTbl_cons, List.length_append, opsVal] at hlen ⊢
            simp at hlen
            omega)]
          rfl
        | str s =>
          simp only [opsVal, List.singleton_append]
          simp only [parseTbl, headOf]
          rw [if_neg hk, if_neg (by simp [hko])]
          rw [ihT es (some k) rest hwf.2 hcok.2 hchain₂ (by
            simp only [opsTbl_cons, List.length_append, opsVal] at hlen ⊢
            simp at hlen
            omega)]
          rfl
        | arr cs =>
          have hwfv := hwf.1.2
          simp only [wfB, Bool.and_eq_true] at hwfv
          have hcokv := hcok.1
          simp only [canonOkB] at hcokv
          have hlen₂ : (opsArr cs).length + 1 ≤ fuel ∧ (opsTbl es).length + 1 ≤ fuel := by
            simp only [opsTbl_cons, opsVal, List.length_append, List.length_cons,
              List.length_append] at hlen
            simp at hlen
            omega
          simp only [opsVal, List.cons_append, List.append_assoc]
          simp only [parseTbl, headOf]
          rw [if_neg hk, if_neg (by simp [hko])]
          simp only [List.nil_append]
          rw [ihA cs none (WOp.endOp :: (opsTbl es ++ rest)) hwfv.1 hcokv
            (by simp [tagOkB, hwfv.2]) hlen₂.1]
          simp only [Except.map]
          rw [ihT es (some k) rest hwf.2 hcok.2 hchain₂ hlen₂.2]
        | table es₂ =>
          have hwfv := hwf.1.2
          simp only [wfB, Bool.and_eq_true] at hwfv
          have hcokv := hcok.1
          simp only [canonOkB, Bool.and_eq_true] at hcokv
          have hlen₂ : (opsTbl es₂).length + 1 ≤ fuel ∧ (opsTbl es).length + 1 ≤ fuel := by
            simp only [opsTbl_cons, opsVal, List.length_append, List.length_cons,
              List.length_append] at hlen
            simp at hlen
            omega
          simp only [opsVal, List.cons_append, List.append_assoc]
          simp only [parseTbl, headOf]
          rw [if_neg hk, if_neg (by simp [hko])]
          simp only [List.nil_append]
          rw [ihT es₂ none (WOp.endOp :: (opsTbl es ++ rest)) hwfv.1 hcokv.2
            hcokv.1 hlen₂.1]
          simp only [Except.map]
          rw [ihT es (some k) rest hwf.2 hcok.2 hchain₂ hlen₂.2]
    · -- arrays
      intro cs tag rest hwf hcok htag hlen
      cases cs with
      | nil => simp [opsArr, parseArr]
      | cons c cs =>
        simp only [wfArrB, Bool.and_eq_true] at hwf
        simp only [canonOkArrB, Bool.and_eq_true] at hcok
        have htagc : ∀ t₀, tag = some t₀ → tagOf c = t₀ := by
          intro t₀ ht
          subst ht
          simp only [tagOkB, List.all_cons, Bool.and_eq_true, beq_iff_eq] at htag
          exact htag.1
        have htag₂ : tagOkB (some (tagOf c)) cs = true := by
          cases tag with
          | none =>
            simp only [tagOkB, homogB] at htag ⊢
            exact htag
          | some t₀ =>
            have := htagc t₀ rfl
            subst this
            simp only [tagOkB, List.all_cons, Bool.and_eq_true] at htag
            simp only [tagOkB]
            exact htag.2
        rw [opsArr_cons, List.append_assoc]
        simp only [List.length_cons]
        cases c with
        | bool b =>
          simp only [opsVal, List.singleton_append]
          simp only [parseArr, headOf]
          cases tag with
          | none =>
            simp only [parseArrElem, tagOfHead, tagOf]
            rw [ihA cs (some 0) rest hwf.2 hcok.2 (by simpa [tagOf] using htag₂) (by
              simp only [opsArr_cons, List.length_append, opsVal] at hlen ⊢
              simp at hlen
              omega)]
            rfl
          | some t₀ =>
            have h0 := htagc t₀ rfl
            simp only [tagOf] at h0
            subst h0
            simp only [tagOfHead, tagOf, ne_eq, not_true_eq_false, if_false, parseArrElem]
            rw [ihA cs (some 0) rest hwf.2 hcok.2 (by simpa [tagOf] using htag₂) (by
              simp only [opsArr_cons, List.length_append, opsVal] at hlen ⊢
              simp at hlen
              omega)]
            rfl
        | i64 n =>
          simp only [opsVal, List.singleton_append]
          simp only [parseArr, headOf]
          cases tag with
          | none =>
            simp only [parseArrElem, tagOfHead, tagOf]
            rw [ihA cs (some 1) rest hwf.2 hcok.2 (by simpa [tagOf] using htag₂) (by
              simp only [opsArr_cons, List.length_append, opsVal] at hlen ⊢
              simp at hlen
              omega)]
            rfl
          | some t₀ =>
            have h0 := htagc t₀ rfl
            simp only [tagOf] at h0
            subst h0
            simp only [tagOfHead, tagOf, ne_eq, not_true_eq_false, if_false, parseArrElem]
            rw [ihA cs (some 1) rest hwf.2 hcok.2 (by simpa [tagOf] using htag₂) (by
              simp only [opsArr_cons, List.length_append, opsVal] at hlen ⊢
              simp at hlen
              omega)]
            rfl
        | f64 x =>
          simp only [opsVal, List.singleton_append]
          simp only [parseArr, headOf]
          cases tag with
          | none =>
            simp only [parseArrElem, tagOfHead, tagOf]
            rw [ihA cs (some 2) rest hwf.2 hcok.2 (by simpa [tagOf] using htag₂) (by
              simp only [opsArr_cons, List.length_append, opsVal] at hlen ⊢
              simp at hlen
              omega)]
            rfl
          | some t₀ =>
            have h0 := htagc t₀ rfl
            simp only [tagOf] at h0
            subst h0
            simp only [tagOfHead, tagOf, ne_eq, not_true_eq_false, if_false, parseArrElem]
            rw [ihA cs (some 2) rest hwf.2 hcok.2 (by simpa [tagOf] using htag₂) (by
              simp only [opsArr_cons, List.length_append, opsVal] at hlen ⊢
              simp at hlen
              omega)]
            rfl
        | str s =>
          simp only [opsVal, List.singleton_append]
          simp only [parseArr, headOf]
          cases tag with
          | none =>
            simp only [parseArrElem, tagOfHead, tagOf]
            rw [ihA cs (some 3) rest hwf.2 hcok.2 (by simpa [tagOf] using htag₂) (by
              simp only [opsArr_cons, List.length_append, opsVal] at hlen ⊢
              simp at hlen
              omega)]
            rfl
          | some t₀ =>
            have h0 := htagc t₀ rfl
            simp only [tagOf] at h0
            subst h0
            simp only [tagOfHead, tagOf, ne_eq, not_true_eq_false, if_false, parseArrElem]
            rw [ihA cs (some 3) rest hwf.2 hcok.2 (by simpa [tagOf] using htag₂) (by
              simp only [opsArr_cons, List.length_append, opsVal] at hlen ⊢
              simp at hlen
              omega)]
            rfl
        | arr cs₂ =>
          have hwfv := hwf.1
          simp only [wfB, Bool.and_eq_true] at hwfv
          have hcokv := hcok.1
          simp only [canonOkB] at hcokv
          have hlen₂ : (opsArr cs₂).length + 1 ≤ fuel ∧ (opsArr cs).length + 1 ≤ fuel := by
            simp only [opsArr_cons, opsVal, List.length_append, List.length_cons,
              List.length_append] at hlen
            simp at hlen
            omega
          have hstep : parseArrElem fuel cs.length (some 4) (.cArr cs₂.length)
              (opsArr cs₂ ++ ([WOp.endOp] ++ (opsArr cs ++ rest))) = .ok (.arr cs₂ :: cs, rest) := by
            simp only [parseArrElem, List.nil_append]
            rw [show (opsArr cs₂ ++ ([WOp.endOp] ++ (opsArr cs ++ rest))) =
              opsArr cs₂ ++ (WOp.endOp :: (opsArr cs ++ rest)) from by simp]
            rw [ihA cs₂ none (WOp.endOp :: (opsArr cs ++ rest)) hwfv.1 hcokv
              (by simp [tagOkB, hwfv.2]) hlen₂.1]
            simp only [Except.map]
            rw [ihA cs (some 4) rest hwf.2 hcok.2 (by simpa [tagOf] using htag₂) hlen₂.2]
          simp only [opsVal, List.cons_append, List.append_assoc]
          simp only [parseArr, headOf]
          cases tag with
          | none =>
            simp only [tagOfHead]
            exact hstep
          | some t₀ =>
            have h0 := htagc t₀ rfl
            simp only [tagOf] at h0
            subst h0
            simp only [tagOfHead, ne_eq, not_true_eq_false, if_false]
            exact hstep
        | table es₂ =>
          have hwfv := hwf.1
          simp only [wfB, Bool.and_eq_true] at hwfv
          have hcokv := hcok.1
          simp only [canonOkB, Bool.and_eq_true] at hcokv
          have hlen₂ : (opsTbl es₂).length + 1 ≤ fuel ∧ (opsArr cs).length + 1 ≤ fuel := by
            simp only [opsArr_cons, opsVal, List.length_append, List.length_cons,
              List.length_append] at hlen
            simp at hlen
            omega
          have hstep : parseArrElem fuel cs.length (some 5) (.cTbl es₂.length)
              (opsTbl es₂ ++ ([WOp.endOp] ++ (opsArr cs ++ rest))) = .ok (.table es₂ :: cs, rest) := by
            simp only [parseArrElem, List.nil_append]
            rw [show (opsTbl es₂ ++ ([WOp.endOp] ++ (opsArr cs ++ rest))) =
              opsTbl es₂ ++ (WOp.endOp :: (opsArr cs ++ rest)) from by simp]
            rw [ihT es₂ none (WOp.endOp :: (opsArr cs ++ rest)) hwfv.1 hcokv.2
              hcokv.1 hlen₂.1]
            simp only [Except.map]
            rw [ihA cs (some 5) rest hwf.2 hcok.2 (by simpa [tagOf] using htag₂) hlen₂.2]
          simp only [opsVal, List.cons_append, List.append_assoc]
          simp only [parseArr, headOf]
          cases tag with
          | none =>
            simp only [tagOfHead]
            exact hstep
          | some t₀ =>
            have h0 := htagc t₀ rfl
            simp only [tagOf] at h0
            subst h0
            simp only [tagOfHead, ne_eq, not_true_eq_false, if_false]
            exact hstep

/-- The op stream `DynConfig::table_to_bin_config` feeds to the writer
(with fuel covering the whole tree; claim C10 shows the serializer's
`unwrap` never fires, so the default is never taken). -/
def serOps (es : List (ByteStr × DVal)) : List WOp :=
  (table_to_bin_config (szTbl es + 1) es).getD []

/-- Embeds `DynConfig::to_bin_config`: returns `EmptyRootTable` for an
empty root table before constructing the writer, otherwise constructs the
writer with the root length, serializes the root table into it and calls
`finish`. -/
def to_bin_config (es : List (ByteStr × DVal)) : Except BWErr (List Nat) :=
  if es.length = 0 then .error .emptyRootTable
  else
    match BinConfigWriter.new es.length with
    | .error e => .error e
    | .ok w => (w.push (serOps es)).finish

mutual
theorem sizeOkB_of_wfB : ∀ v : DVal, wfB v = true → sizeOkB v = true
  | .bool _ => fun _ => rfl
  | .i64 _ => fun _ => rfl
  | .f64 _ => fun _ => rfl
  | .str s => fun h => by
    simp only [wfB, Bool.and_eq_true] at h
    simp only [sizeOkB]
    exact h.2
  | .arr cs => fun h => by
    simp only [wfB, Bool.and_eq_true] at h
    simp only [sizeOkB]
    exact sizeOkArrB_of_wf cs h.1
  | .table es => fun h => by
    simp only [wfB, Bool.and_eq_true] at h
    simp only [sizeOkB]
    exact sizeOkTblB_of_wf es h.1

theorem sizeOkArrB_of_wf : ∀ cs : List DVal, wfArrB cs = true → sizeOkArrB cs = true
  | [] => fun _ => rfl
  | c :: cs => fun h => by
    simp only [wfArrB, Bool.and_eq_true] at h
    simp only [sizeOkArrB, Bool.and_eq_true]
    exact ⟨sizeOkB_of_wfB c h.1, sizeOkArrB_of_wf cs h.2⟩

theorem sizeOkTblB_of_wf : ∀ es : List (ByteStr × DVal), wfTblB es = true → sizeOkTblB es = true
  | [] => fun _ => rfl
  | e :: es => fun h => by
    simp only [wfTblB, Bool.and_eq_true] at h
    simp only [sizeOkTblB, Bool.and_eq_true]
    exact ⟨⟨h.1.1.2, sizeOkB_of_wfB e.2 h.1.2⟩, sizeOkTblB_of_wf es h.2⟩
end

/-- The spec-shaped op stream is what the serializer feeds the writer. -/
theorem serOps_eq {es : List (ByteStr × DVal)} (hwf : wfB (.table es) = true) :
    serOps es = opsTbl (canonT es) := by
  rw [serOps, table_to_bin_eq hwf (by simp [szVal]; omega)]
  rfl

/-- With a well-formed root table whose canonical buffer fits `u32`,
`finish` succeeds and returns the canonical layout. -/
theorem finish_ok {es : List (ByteStr × DVal)} (hwf : wfB (.table es) = true)
    (hsize : totalLen (canonT es) < 2 ^ 32) :
    (BinConfigWriter.push ⟨es.length, []⟩ (serOps es)).finish =
      .ok (layoutBytes (canonT es)) := by
  have hwfc := wfB_canon (.table es) hwf
  rw [canon_table_def] at hwfc
  simp only [wfB, Bool.and_eq_true] at hwfc
  have hcok := canonOkB_canon (.table es) hwf
  rw [canon_table_def] at hcok
  simp only [canonOkB, Bool.and_eq_true] at hcok
  have hops : (BinConfigWriter.push ⟨es.length, []⟩ (serOps es)).ops = opsTbl (canonT es) := by
    simp [BinConfigWriter.push, serOps_eq hwf]
  have hroot : (BinConfigWriter.push ⟨es.length, []⟩ (serOps es)).rootLen = (canonT es).length := by
    simp [BinConfigWriter.push, canonT_length]
  have hparse := (parse_replay ((opsTbl (canonT es)).length + 1)).1 (canonT es) none []
    hwfc.1 hcok.2 hcok.1 (by omega)
  rw [List.append_nil] at hparse
  rw [BinConfigWriter.finish, hops, hroot, hparse]
  have hlen32 : (canonT es).length < 2 ^ 32 := by
    have h1 : totalLen (canonT es) = heapStart (canonT es) + heapSize (canonT es) := rfl
    have h2 : heapStart (canonT es) =
        12 + 16 * (canonT es).length + subSizeTbl (canonT es) := rfl
    omega
  have hcond : (sizeOkTblB (canonT es) && decide ((canonT es).length < 2 ^ 32) &&
      decide (totalLen (canonT es) < 2 ^ 32)) = true := by
    simp only [Bool.and_eq_true, decide_eq_true_eq]
    exact ⟨⟨sizeOkTblB_of_wf _ hwfc.1, hlen32⟩, hsize⟩
  simp [hcond]
  exact ⟨sizeOkTblB_of_wf _ hwfc.1, hlen32, hsize⟩

/-- **C4**: `DynConfig::to_bin_config` on a config whose root table has
zero entries returns `EmptyRootTable`; the source performs this check
before constructing the writer (in the embedding, the length guard is the
first branch of `to_bin_config`, taken before `BinConfigWriter.new`), so
no writer exists and no byte is produced.  For a non-empty root table
serialization proceeds: under the data-model invariants and the `u32`
total-size bound, the writer is constructed and the whole pipeline
returns the canonical buffer. -/
theorem to_bin_config_empty_root (es : List (ByteStr × DVal)) :
    (es.length = 0 → to_bin_config es = .error .emptyRootTable) ∧
    (wfB (.table es) = true → totalLen (canonT es) < 2 ^ 32 → es.length ≠ 0 →
      to_bin_config es = .ok (layoutBytes (canonT es))) := by
  constructor
  · intro h
    rw [to_bin_config, if_pos h]
  · intro hwf hsize hne
    rw [to_bin_config, if_neg hne, BinConfigWriter.new, if_neg hne]
    exact finish_ok hwf hsize

/-- Example table for the C4 witness. -/
def tC4 : List (ByteStr × DVal) := [([107], .bool true)]

/-- Witness for C4: the empty root table errors, and a concrete singleton
table serializes. -/
theorem to_bin_config_empty_root_witness :
    (([] : List (ByteStr × DVal)).length = 0 ∧
      to_bin_config [] = .error .emptyRootTable) ∧
    (wfB (.table tC4) = true ∧ totalLen (canonT tC4) < 2 ^ 32 ∧ tC4.length ≠ 0 ∧
      to_bin_config tC4 = .ok (layoutBytes (canonT tC4))) :=
  ⟨⟨rfl, (to_bin_config_empty_root []).1 rfl⟩,
    ⟨by decide, by decide, by decide,
      (to_bin_config_empty_root tC4).2 (by decide) (by decide) (by decide)⟩⟩

/-- **C2**: `DynConfig::to_bin_config` produces byte-identical output for
any two value-equal dynamic trees — the same logical tree built by
insertions in different orders, hence iterated in different orders.  Both
pipelines factor through the canonical (recursively key-sorted) form, and
canonicalization maps value-equal well-formed trees to the same tree, so
the results agree byte for byte (success and error cases alike). -/
theorem to_bin_config_canonical (es₁ es₂ : List (ByteStr × DVal))
    (h₁ : wfB (.table es₁) = true) (h₂ : wfB (.table es₂) = true)
    (hveq : VEq (.table es₁) (.table es₂)) :
    to_bin_config es₁ = to_bin_config es₂ := by
  have hc : canonT es₁ = canonT es₂ := by
    have h := canon_eq_of_veq hveq h₁ h₂
    rw [canon_table_def, canon_table_def] at h
    injection h
  have hlen : es₁.length = es₂.length := by
    cases hveq with
    | table _ _ hperm _ =>
      have := hperm.length_eq
      simpa [keysOf] using this
  have hops : serOps es₁ = serOps es₂ := by
    rw [serOps_eq h₁, serOps_eq h₂, hc]
  rw [to_bin_config, to_bin_config, hlen, hops]

/-- Example tables for the C2 witness: the same logical tree inserted in
two different orders (nested table entries also permuted). -/
def tC2a : List (ByteStr × DVal) :=
  [([98], .i64 2), ([97], .table [([100], .bool true), ([99], .str [104])])]

/-- The same logical tree as `tC2a`, built in a different order. -/
def tC2b : List (ByteStr × DVal) :=
  [([97], .table [([99], .str [104]), ([100], .bool true)]), ([98], .i64 2)]

/-- Witness for C2 at two concretely permuted trees. -/
theorem to_bin_config_canonical_witness :
    wfB (.table tC2a) = true ∧ wfB (.table tC2b) = true ∧
      VEq (.table tC2a) (.table tC2b) ∧
      to_bin_config tC2a = to_bin_config tC2b :=
  have hveq : VEq (.table tC2a) (.table tC2b) := by
    have hin : VEq (.table [([100], DVal.bool true), ([99], DVal.str [104])])
        (.table [([99], DVal.str [104]), ([100], DVal.bool true)]) :=
      VEq_table_perm (by decide) (List.Perm.swap _ _ _)
    refine VEq.table _ _ (by decide) ?_
    intro k v₁ v₂ hl₁ hl₂
    by_cases hk₁ : k = [98]
    · subst hk₁
      simp [tC2a, tC2b, lookupB] at hl₁ hl₂
      rcases hl₁ with rfl
      rcases hl₂ with rfl
      exact VEq_refl _
    · by_cases hk₂ : k = [97]
      · subst hk₂
        simp [tC2a, tC2b, lookupB] at hl₁ hl₂
        rcases hl₁ with rfl
        rcases hl₂ with rfl
        exact hin
      · exfalso
        have h₁ : ([98] : ByteStr) ≠ k := fun h => hk₁ h.symm
        have h₂ : ([97] : ByteStr) ≠ k := fun h => hk₂ h.symm
        simp [tC2a, lookupB, h₁, h₂] at hl₁
  ⟨by decide, by decide, hveq, to_bin_config_canonical tC2a tC2b (by decide) (by decide) hveq⟩

/-! ## The binary config reader, modelled from the spec (§4.1, §4.2)

`BinConfig` (the zero-copy reader) is not under `src/`.  It is modelled
from the spec as a decoder over the byte buffer: construction checks the
magic, the recorded total length, reads the root entry count, decodes the
entry tree by following the offsets of §4.1 with bounds checks at every
read, and validates that every table's keys are non-empty and strictly
ascending and every array is type-homogeneous.  (The model's strings are
byte strings, so UTF-8 validation is the identity here.)  Reading a
decoded buffer into a dynamic tree is the composition the round-trip
claim needs. -/

inductive BRErr where
  | badMagic
  | lengthMismatch
  | unexpectedEndOfBuffer
  | unknownType (tag : Nat)
  | emptyKey
  | keysNotSorted
  | mixedArray
deriving DecidableEq

/-- Bounds-checked read of `len` bytes at `off`. -/
def slice (buf : List Nat) (off len : Nat) : Option (List Nat) :=
  if off + len ≤ buf.length then some ((buf.drop off).take len) else none

/-- Bounds-checked little-endian `u32` read. -/
def readU32 (buf : List Nat) (off : Nat) : Option Nat :=
  match slice buf off 4 with
  | some [b0, b1, b2, b3] => some (dec32 b0 b1 b2 b3)
  | _ => none

/-- Bounds-checked little-endian `u64` read. -/
def readU64 (buf : List Nat) (off : Nat) : Option Nat :=
  match slice buf off 8 with
  | some [b0, b1, b2, b3, b4, b5, b6, b7] => some (dec64 b0 b1 b2 b3 b4 b5 b6 b7)
  | _ => none

/-- One decoding pass over a run of `n` 16-byte entry records starting at `off`:
reads the word (key length + tag) and key offset, slices the key from the heap,
and dispatches on the tag; nested containers are decoded by the `child`
continuation. Structural recursion on the remaining entry count. -/
def readEntriesGo (buf : List Nat)
    (child : Nat → Nat → Except BRErr (List (ByteStr × DVal))) :
    Nat → Nat → Except BRErr (List (ByteStr × DVal))
  | _, 0 => .ok []
  | off, n + 1 =>
    (readU32 buf off).elim (.error .unexpectedEndOfBuffer) fun word =>
    (readU32 buf (off + 4)).elim (.error .unexpectedEndOfBuffer) fun keyOff =>
    (slice buf keyOff (word % 2 ^ 28)).elim (.error .unexpectedEndOfBuffer) fun key =>
    if word / 2 ^ 28 = 0 then
      (readU64 buf (off + 8)).elim (.error .unexpectedEndOfBuffer) fun p =>
        (readEntriesGo buf child (off + 16) n).map
          (fun es => (key, .bool (decide (p = 1))) :: es)
    else if word / 2 ^ 28 = 1 then
      (readU64 buf (off + 8)).elim (.error .unexpectedEndOfBuffer) fun p =>
        (readEntriesGo buf child (off + 16) n).map
          (fun es => (key, .i64 (u64ToI64 p)) :: es)
    else if word / 2 ^ 28 = 2 then
      (readU64 buf (off + 8)).elim (.error .unexpectedEndOfBuffer) fun p =>
        (readEntriesGo buf child (off + 16) n).map
          (fun es => (key, .f64 p) :: es)
    else if word / 2 ^ 28 = 3 then
      (readU32 buf (off + 8)).elim (.error .unexpectedEndOfBuffer) fun slen =>
      (readU32 buf (off + 12)).elim (.error .unexpectedEndOfBuffer) fun soff =>
      (slice buf soff slen).elim (.error .unexpectedEndOfBuffer) fun s =>
        (readEntriesGo buf child (off + 16) n).map
          (fun es => (key, .str s) :: es)
    else if word / 2 ^ 28 = 4 then
      (readU32 buf (off + 8)).elim (.error .unexpectedEndOfBuffer) fun cnt =>
      (readU32 buf (off + 12)).elim (.error .unexpectedEndOfBuffer) fun coff =>
      (child coff cnt).bind fun children =>
        (readEntriesGo buf child (off + 16) n).map
          (fun es => (key, .arr (children.map Prod.snd)) :: es)
    else if word / 2 ^ 28 = 5 then
      (readU32 buf (off + 8)).elim (.error .unexpectedEndOfBuffer) fun cnt =>
      (readU32 buf (off + 12)).elim (.error .unexpectedEndOfBuffer) fun coff =>
      (child coff cnt).bind fun children =>
        (readEntriesGo buf child (off + 16) n).map
          (fun es => (key, .table children) :: es)
    else .error (.unknownType (word / 2 ^ 28))

/-- Entry decoder with a recursion-depth fuel bound: one nesting level per unit
of fuel, each level a `readEntriesGo` pass whose child continuation runs at the
next-smaller fuel. Models the reader of the spec. -/
def readEntries (buf : List Nat) : Nat → Nat → Nat → Except BRErr (List (ByteStr × DVal))
  | 0, _, _ => .error .unexpectedEndOfBuffer
  | fuel + 1, off, n => readEntriesGo buf (readEntries buf fuel) off n

theorem readEntries_succ (buf : List Nat) (fuel off n : Nat) :
    readEntries buf (fuel + 1) off n =
      readEntriesGo buf (readEntries buf fuel) off n := rfl

mutual
/-- Reader validation: every table key non-empty, at every level. -/
def keysNeB : DVal → Bool
  | .bool _ => true
  | .i64 _ => true
  | .f64 _ => true
  | .str _ => true
  | .arr cs => keysNeArrB cs
  | .table es => keysNeTblB es

/-- Non-empty-key validation over an array's elements. -/
def keysNeArrB : List DVal → Bool
  | [] => true
  | c :: cs => keysNeB c && keysNeArrB cs

/-- Non-empty-key validation over a table's entries. -/
def keysNeTblB : List (ByteStr × DVal) → Bool
  | [] => true
  | e :: es => decide (e.1 ≠ []) && keysNeB e.2 && keysNeTblB es
end

mutual
/-- Reader validation: every array type-homogeneous, at every level. -/
def homogAllB : DVal → Bool
  | .bool _ => true
  | .i64 _ => true
  | .f64 _ => true
  | .str _ => true
  | .arr cs => homogB cs && homogAllArrB cs
  | .table es => homogAllTblB es

/-- Homogeneity validation over an array's elements. -/
def homogAllArrB : List DVal → Bool
  | [] => true
  | c :: cs => homogAllB c && homogAllArrB cs

/-- Homogeneity validation over a table's entries. -/
def homogAllTblB : List (ByteStr × DVal) → Bool
  | [] => true
  | e :: es => homogAllB e.2 && homogAllTblB es
end

/-- Modelled from the spec: constructing the reader from a byte slice and
reading it back as a tree — magic check, recorded-length check, root
entry count, recursive entry decoding, and the §4.2 validation (non-empty
keys, strictly ascending keys per table, homogeneous arrays). -/
def readBin (buf : List Nat) : Except BRErr (List (ByteStr × DVal)) :=
  if slice buf 0 4 ≠ some magicBytes then .error .badMagic
  else
    match readU32 buf 4 with
    | none => .error .unexpectedEndOfBuffer
    | some total =>
      if total ≠ buf.length then .error .lengthMismatch
      else
        match readU32 buf 8 with
        | none => .error .unexpectedEndOfBuffer
        | some n =>
          match readEntries buf (buf.length + 1) 12 n with
          | .error e => .error e
          | .ok rs =>
            if keysNeTblB rs = false then .error .emptyKey
            else if canonOkB (.table rs) = false then .error .keysNotSorted
            else if homogAllTblB rs = false then .error .mixedArray
            else .ok rs

/-! ## Lengths of emitted regions -/

theorem payload8_length (σ : ByteStr → Nat) (v : DVal) (off : Nat) :
    (payload8 σ v off).length = 8 := by
  cases v <;> simp [payload8, u64le, u32le]

theorem entryRecord_length (σ : ByteStr → Nat) (key : Option ByteStr) (v : DVal) (off : Nat) :
    (entryRecord σ key v off).length = 16 := by
  simp [entryRecord, u32le, payload8_length]

theorem emitTblRecords_length (σ : ByteStr → Nat) (es : List (ByteStr × DVal)) :
    ∀ c, (emitTblRecords σ es c).length = 16 * es.length := by
  induction es with
  | nil => intro c; rfl
  | cons e es ih =>
    intro c
    simp [emitTblRecords, entryRecord_length, ih]
    omega

theorem emitArrRecords_length (σ : ByteStr → Nat) (cs : List DVal) :
    ∀ c, (emitArrRecords σ cs c).length = 16 * cs.length := by
  induction cs with
  | nil => intro c; rfl
  | cons x cs ih =>
    intro c
    simp [emitArrRecords, entryRecord_length, ih]
    omega

mutual
theorem emitVal_length (σ : ByteStr → Nat) :
    ∀ (v : DVal) (base : Nat), (emitVal σ v base).length = subSize v
  | .bool _, _ => rfl
  | .i64 _, _ => rfl
  | .f64 _, _ => rfl
  | .str _, _ => rfl
  | .arr cs, base => by
    simp only [emitVal, subSize, List.length_append, emitArrRecords_length]
    rw [emitArrRegions_length σ cs (base + 16 * cs.length)]
  | .table es, base => by
    simp only [emitVal, subSize, List.length_append, emitTblRecords_length]
    rw [emitTblRegions_length σ es (base + 16 * es.length)]

theorem emitArrRegions_length (σ : ByteStr → Nat) :
    ∀ (cs : List DVal) (c : Nat), (emitArrRegions σ cs c).length = subSizeArr cs
  | [], _ => rfl
  | x :: cs, c => by
    simp only [emitArrRegions, subSizeArr, List.length_append]
    rw [emitVal_length σ x c, emitArrRegions_length σ cs (c + subSize x)]

theorem emitTblRegions_length (σ : ByteStr → Nat) :
    ∀ (es : List (ByteStr × DVal)) (c : Nat), (emitTblRegions σ es c).length = subSizeTbl es
  | [], _ => rfl
  | e :: es, c => by
    simp only [emitTblRegions, subSizeTbl, List.length_append]
    rw [emitVal_length σ e.2 c, emitTblRegions_length σ es (c + subSize e.2)]
end

/-! ## Sub-buffer containment -/

/-- The bytes `seg` sit in `buf` starting at offset `off`. -/
def SegAt (buf : List Nat) (off : Nat) (seg : List Nat) : Prop :=
  ∃ pre post, buf = pre ++ seg ++ post ∧ pre.length = off

theorem SegAt.bound {buf : List Nat} {off : Nat} {seg : List Nat} (h : SegAt buf off seg) :
    off + seg.length ≤ buf.length := by
  rcases h with ⟨pre, post, hbuf, hlen⟩
  subst hbuf
  simp [← hlen]

theorem SegAt.slice_eq {buf : List Nat} {off : Nat} {seg : List Nat} (h : SegAt buf off seg) :
    slice buf off seg.length = some seg := by
  have hb := h.bound
  rcases h with ⟨pre, post, hbuf, hlen⟩
  subst hbuf
  rw [slice, if_pos hb]
  rw [← hlen, List.append_assoc, List.drop_left, List.take_left]

theorem SegAt.split {buf : List Nat} {off : Nat} {a b : List Nat}
    (h : SegAt buf off (a ++ b)) : SegAt buf off a ∧ SegAt buf (off + a.length) b := by
  rcases h with ⟨pre, post, hbuf, hlen⟩
  constructor
  · exact ⟨pre, b ++ post, by simp [hbuf], hlen⟩
  · exact ⟨pre ++ a, post, by simp [hbuf], by simp [hlen]⟩

theorem SegAt.inner {buf H : List Nat} {p o : Nat} {seg : List Nat}
    (hb : SegAt buf p H) (hs : SegAt H o seg) : SegAt buf (p + o) seg := by
  rcases hb with ⟨pre, post, hbuf, hlen⟩
  rcases hs with ⟨pre₂, post₂, hH, hlen₂⟩
  exact ⟨pre ++ pre₂, post₂ ++ post, by simp [hbuf, hH], by simp [hlen, hlen₂]⟩

theorem readU32_of_seg {buf : List Nat} {off n : Nat} (h : SegAt buf off (u32le n))
    (hn : n < 2 ^ 32) : readU32 buf off = some n := by
  have hs := h.slice_eq
  rw [u32le_length] at hs
  rw [readU32, hs]
  show some (dec32 (n % 256) (n / 256 % 256) (n / 256 ^ 2 % 256) (n / 256 ^ 3 % 256)) = some n
  rw [dec32_u32le hn]

theorem readU64_of_seg {buf : List Nat} {off n : Nat} (h : SegAt buf off (u64le n))
    (hn : n < 2 ^ 64) : readU64 buf off = some n := by
  have hs := h.slice_eq
  rw [u64le_length] at hs
  rw [readU64, hs]
  show some (dec64 (n % 256) (n / 256 % 256) (n / 256 ^ 2 % 256) (n / 256 ^ 3 % 256)
    (n / 256 ^ 4 % 256) (n / 256 ^ 5 % 256) (n / 256 ^ 6 % 256) (n / 256 ^ 7 % 256)) = some n
  rw [dec64_u64le hn]

theorem slice_of_seg {buf : List Nat} {off : Nat} {seg : List Nat} (h : SegAt buf off seg) :
    slice buf off seg.length = some seg := h.slice_eq

/-! ## The string heap holds every interned string -/

theorem dedupGo_mem {l : List ByteStr} :
    ∀ {seen : List ByteStr} {s : ByteStr}, s ∈ l → ¬ s ∈ seen → s ∈ dedupGo seen l := by
  induction l with
  | nil => intro seen s h; simp at h
  | cons t ts ih =>
    intro seen s hmem hseen
    rcases List.mem_cons.mp hmem with h | h
    · subst h
      rw [dedupGo, if_neg (by simpa using hseen)]
      simp
    · by_cases ht : seen.contains t
      · rw [dedupGo, if_pos ht]
        exact ih h hseen
      · rw [dedupGo, if_neg ht]
        by_cases hst : s = t
        · subst hst; simp
        · exact List.mem_cons_of_mem _ (ih h (by
            simp only [List.mem_cons, not_or]
            exact ⟨hst, hseen⟩))

theorem mem_dedupFirst {l : List ByteStr} {s : ByteStr} (h : s ∈ l) : s ∈ dedupFirst l :=
  dedupGo_mem h (by simp)

theorem segAt_flatten {heap : List ByteStr} {s : ByteStr} (h : s ∈ heap) :
    SegAt heap.flatten (offIn heap s) s := by
  induction heap with
  | nil => simp at h
  | cons t ts ih =>
    by_cases hts : t = s
    · subst hts
      rw [offIn, if_pos rfl]
      exact ⟨[], ts.flatten, by simp, rfl⟩
    · have hmem : s ∈ ts := by
        rcases List.mem_cons.mp h with h | h
        · exact absurd h.symm hts
        · exact h
      rw [offIn, if_neg hts]
      rcases ih hmem with ⟨pre, post, hflat, hlen⟩
      exact ⟨t ++ pre, post, by simp [hflat], by simp [hlen]⟩

/-! ## Round-trip: reading back a canonical layout -/

theorem tagOf_le_five (v : DVal) : tagOf v ≤ 5 := by
  cases v <;> simp [tagOf]

theorem readEntries_zero {buf : List Nat} {fuel off : Nat} (h : 1 ≤ fuel) :
    readEntries buf fuel off 0 = .ok [] := by
  cases fuel with
  | zero => omega
  | succ fuel => rfl

theorem map_snd_keyless (cs : List DVal) :
    (cs.map (fun c => (([] : ByteStr), c))).map Prod.snd = cs := by
  simp [List.map_map]

theorem szArr_of_szVal_arr {cs : List DVal} : szArr cs < szVal (.arr cs) := by
  simp [szVal]

theorem szTbl_of_szVal_table {es : List (ByteStr × DVal)} : szTbl es < szVal (.table es) := by
  simp [szVal]

theorem entryRecord_some (σ : ByteStr → Nat) (k : ByteStr) (v : DVal) (off : Nat) :
    entryRecord σ (some k) v off =
      u32le (k.length + 2 ^ 28 * tagOf v) ++ (u32le (σ k) ++ payload8 σ v off) := by
  simp [entryRecord]

theorem entryRecord_none (σ : ByteStr → Nat) (v : DVal) (off : Nat) :
    entryRecord σ none v off =
      u32le (0 + 2 ^ 28 * tagOf v) ++ (u32le 0 ++ payload8 σ v off) := by
  simp [entryRecord]

theorem slice_nil (buf : List Nat) : slice buf 0 0 = some [] := by
  simp [slice]

theorem emitTblRecords_cons (σ : ByteStr → Nat) (k : ByteStr) (v : DVal)
    (es : List (ByteStr × DVal)) (c : Nat) :
    emitTblRecords σ ((k, v) :: es) c =
      entryRecord σ (some k) v c ++ emitTblRecords σ es (c + subSize v) := rfl

theorem emitTblRegions_cons (σ : ByteStr → Nat) (k : ByteStr) (v : DVal)
    (es : List (ByteStr × DVal)) (c : Nat) :
    emitTblRegions σ ((k, v) :: es) c =
      emitVal σ v c ++ emitTblRegions σ es (c + subSize v) := rfl

theorem emitArrRecords_cons (σ : ByteStr → Nat) (c : DVal) (cs : List DVal) (off : Nat) :
    emitArrRecords σ (c :: cs) off =
      entryRecord σ none c off ++ emitArrRecords σ cs (off + subSize c) := rfl

theorem emitArrRegions_cons (σ : ByteStr → Nat) (c : DVal) (cs : List DVal) (off : Nat) :
    emitArrRegions σ (c :: cs) off =
      emitVal σ c off ++ emitArrRegions σ cs (off + subSize c) := rfl

/-- Decoding the emitted records of a canonical tree recovers the tree:
the statement for table entry lists and array element lists, proven by
induction on the nesting fuel with inner inductions along the entry
sequences.  `σ` maps every interned string to an in-bounds copy of
itself. -/
theorem readEntries_rt (σ : ByteStr → Nat) (buf : List Nat) (hbuf : buf.length < 2 ^ 32) :
    ∀ fuel : Nat,
    (∀ (es : List (ByteStr × DVal)) (base childOff : Nat),
      SegAt buf base (emitTblRecords σ es childOff) →
      SegAt buf childOff (emitTblRegions σ es childOff) →
      (∀ s ∈ strsOfTbl es, SegAt buf (σ s) s) →
      wfTblB es = true → szTbl es < fuel →
      readEntries buf fuel base es.length = .ok es) ∧
    (∀ (cs : List DVal) (base childOff : Nat),
      SegAt buf base (emitArrRecords σ cs childOff) →
      SegAt buf childOff (emitArrRegions σ cs childOff) →
      (∀ s ∈ strsOfArr cs, SegAt buf (σ s) s) →
      wfArrB cs = true → szArr cs < fuel →
      readEntries buf fuel base cs.length = .ok (cs.map (fun c => ([], c)))) := by
  intro fuel
  induction fuel with
  | zero =>
    constructor
    · intro es _ _ _ _ _ _ h
      omega
    · intro cs _ _ _ _ _ _ h
      omega
  | succ fuel ih =>
    obtain ⟨ihT, ihA⟩ := ih
    constructor
    · intro es
      induction es with
      | nil =>
        intro base childOff _ _ _ _ _
        rfl
      | cons e es ihes =>
        intro base childOff hrec hreg hstr hwf hsz
        obtain ⟨k, v⟩ := e
        simp only [wfTblB, Bool.and_eq_true, decide_eq_true_eq] at hwf
        have hklen : k.length < 2 ^ 28 := hwf.1.1.2
        have hwfv : wfB v = true := hwf.1.2
        rw [emitTblRecords_cons] at hrec
        obtain ⟨hrecE, hrecRest⟩ := hrec.split
        rw [entryRecord_length] at hrecRest
        rw [emitTblRegions_cons] at hreg
        obtain ⟨hregE, hregRest⟩ := hreg.split
        rw [emitVal_length] at hregRest
        rw [entryRecord_some] at hrecE
        obtain ⟨hword, hrest⟩ := hrecE.split
        rw [u32le_length] at hrest
        obtain ⟨hkoff, hpay⟩ := hrest.split
        rw [u32le_length, show base + 4 + 4 = base + 8 from by omega] at hpay
        have hkey : SegAt buf (σ k) k := hstr k (by simp [strsOfTbl])
        have hkb := hkey.bound
        have htag5 := tagOf_le_five v
        have hword32 : k.length + 2 ^ 28 * tagOf v < 2 ^ 32 := by omega
        have hr32 := readU32_of_seg hword hword32
        have hr32k := readU32_of_seg hkoff (by omega)
        have hmod : (k.length + 2 ^ 28 * tagOf v) % 2 ^ 28 = k.length := by omega
        have hdiv : (k.length + 2 ^ 28 * tagOf v) / 2 ^ 28 = tagOf v := by omega
        have hkslice : slice buf (σ k) k.length = some k := slice_of_seg hkey
        have hseq : readEntries buf (fuel + 1) (base + 16) es.length = .ok es := by
          apply ihes (base + 16) (childOff + subSize v) hrecRest hregRest
          · intro s hs
            exact hstr s (by simp [strsOfTbl, hs])
          · rw [wfTblB_iff]
            intro x hx
            exact wfTblB_iff.mp hwf.2 x hx
          · have := szVal_pos v
            simp only [szTbl] at hsz ⊢
            omega
        rw [List.length_cons, readEntries_succ, readEntriesGo, hr32]
        simp only [Option.elim]
        rw [hr32k]
        simp only [Option.elim]
        rw [hmod, hkslice]
        simp only [Option.elim]
        rw [hdiv]
        cases v with
        | bool b =>
          have hrp := readU64_of_seg hpay (n := if b then 1 else 0) (by cases b <;> simp)
          cases b <;>
            simp [tagOf, hrp, Option.elim, ← readEntries_succ, hseq, Except.map]
        | i64 n =>
          have hwfn : -2 ^ 63 ≤ n ∧ n < 2 ^ 63 := by
            simp only [wfB, Bool.and_eq_true, decide_eq_true_eq] at hwfv
            exact hwfv
          have hrp := readU64_of_seg hpay (i64ToU64_lt n)
          simp [tagOf, hrp, Option.elim, ← readEntries_succ, hseq, Except.map,
            u64ToI64_i64ToU64 hwfn.1 hwfn.2]
        | f64 x =>
          have hx : x < 2 ^ 64 := by
            simp only [wfB, decide_eq_true_eq] at hwfv
            exact hwfv
          have hrp := readU64_of_seg hpay hx
          simp [tagOf, hrp, Option.elim, ← readEntries_succ, hseq, Except.map]
        | str s =>
          have hslen : s.length < 2 ^ 32 := by
            simp only [wfB, Bool.and_eq_true, decide_eq_true_eq] at hwfv
            exact hwfv.2
          have hsmem : SegAt buf (σ s) s := hstr s (by simp [strsOfTbl, strsOfVal])
          rw [payload8] at hpay
          obtain ⟨hplen, hpoff⟩ := hpay.split
          rw [u32le_length, show base + 8 + 4 = base + 12 from by omega] at hpoff
          have hr1 := readU32_of_seg hplen hslen
          have hr2 := readU32_of_seg hpoff (by have := hsmem.bound; omega)
          have hsl : slice buf (σ s) s.length = some s := slice_of_seg hsmem
          simp [tagOf, hr1, hr2, hsl, Option.elim, ← readEntries_succ, hseq, Except.map]
        | arr cs =>
          have hsub := hregE.bound
          rw [emitVal_length] at hsub
          have hcnt32 : cs.length < 2 ^ 32 := by
            simp only [subSize] at hsub
            omega
          rw [payload8] at hpay
          obtain ⟨hplen, hpoff⟩ := hpay.split
          rw [u32le_length, show base + 8 + 4 = base + 12 from by omega] at hpoff
          have hr1 := readU32_of_seg hplen hcnt32
          have hwfcs : wfArrB cs = true := by
            simp only [wfB, Bool.and_eq_true] at hwfv
            exact hwfv.1
          have hchild : readEntries buf fuel childOff cs.length =
              .ok (cs.map (fun c => ([], c))) := by
            rw [emitVal] at hregE
            obtain ⟨hcrec, hcreg⟩ := hregE.split
            rw [emitArrRecords_length] at hcreg
            apply ihA cs childOff (childOff + 16 * cs.length) hcrec hcreg
            · intro s hs
              exact hstr s (by simp [strsOfTbl, strsOfVal, hs])
            · exact hwfcs
            · have h1 : szArr cs < szVal (.arr cs) := szArr_of_szVal_arr
              simp only [szTbl] at hsz
              omega
          rcases Nat.eq_zero_or_pos cs.length with hc0 | hcpos
          · rw [hc0, if_pos rfl] at hpoff
            have hr2 := readU32_of_seg hpoff (by omega)
            have hfuel1 : 1 ≤ fuel := by
              have h1 := szVal_pos (DVal.arr cs)
              simp only [szTbl, szVal] at hsz
              omega
            have hch0 : readEntries buf fuel 0 0 = .ok [] := readEntries_zero hfuel1
            rw [List.length_eq_zero] at hc0
            subst hc0
            simp [tagOf, hr1, hr2, hch0, Option.elim, ← readEntries_succ, hseq,
              Except.map, Except.bind]
          · have hcoff32 : childOff < 2 ^ 32 := by omega
            rw [if_neg (by omega)] at hpoff
            have hr2 := readU32_of_seg hpoff hcoff32
            simp [tagOf, hr1, hr2, hchild, Option.elim, ← readEntries_succ, hseq,
              Except.map, Except.bind, map_snd_keyless]
        | table es₂ =>
          have hsub := hregE.bound
          rw [emitVal_length] at hsub
          have hcnt32 : es₂.length < 2 ^ 32 := by
            simp only [subSize] at hsub
            omega
          rw [payload8] at hpay
          obtain ⟨hplen, hpoff⟩ := hpay.split
          rw [u32le_length, show base + 8 + 4 = base + 12 from by omega] at hpoff
          have hr1 := readU32_of_seg hplen hcnt32
          have hwfes : wfTblB es₂ = true := by
            simp only [wfB, Bool.and_eq_true] at hwfv
            exact hwfv.1
          have hchild : readEntries buf fuel childOff es₂.length = .ok es₂ := by
            rw [emitVal] at hregE
            obtain ⟨hcrec, hcreg⟩ := hregE.split
            rw [emitTblRecords_length] at hcreg
            apply ihT es₂ childOff (childOff + 16 * es₂.length) hcrec hcreg
            · intro s hs
              exact hstr s (by simp [strsOfTbl, strsOfVal, hs])
            · exact hwfes
            · have h1 : szTbl es₂ < szVal (.table es₂) := szTbl_of_szVal_table
              simp only [szTbl] at hsz
              omega
          rcases Nat.eq_zero_or_pos es₂.length with hc0 | hcpos
          · rw [hc0, if_pos rfl] at hpoff
            have hr2 := readU32_of_seg hpoff (by omega)
            have hfuel1 : 1 ≤ fuel := by
              have h1 := szVal_pos (DVal.table es₂)
              simp only [szTbl, szVal] at hsz
              omega
            have hch0 : readEntries buf fuel 0 0 = .ok [] := readEntries_zero hfuel1
            rw [List.length_eq_zero] at hc0
            subst hc0
            simp [tagOf, hr1, hr2, hch0, Option.elim, ← readEntries_succ, hseq,
              Except.map, Except.bind]
          · have hcoff32 : childOff < 2 ^ 32 := by omega
            rw [if_neg (by omega)] at hpoff
            have hr2 := readU32_of_seg hpoff hcoff32
            simp [tagOf, hr1, hr2, hchild, Option.elim, ← readEntries_succ, hseq,
              Except.map, Except.bind]
    · intro cs
      induction cs with
      | nil =>
        intro base childOff _ _ _ _ _
        rfl
      | cons c cs ihcs =>
        intro base childOff hrec hreg hstr hwf hsz
        simp only [wfArrB, Bool.and_eq_true] at hwf
        have hwfv : wfB c = true := hwf.1
        rw [emitArrRecords_cons] at hrec
        obtain ⟨hrecE, hrecRest⟩ := hrec.split
        rw [entryRecord_length] at hrecRest
        rw [emitArrRegions_cons] at hreg
        obtain ⟨hregE, hregRest⟩ := hreg.split
        rw [emitVal_length] at hregRest
        rw [entryRecord_none] at hrecE
        obtain ⟨hword, hrest⟩ := hrecE.split
        rw [u32le_length] at hrest
        obtain ⟨hkoff, hpay⟩ := hrest.split
        rw [u32le_length, show base + 4 + 4 = base + 8 from by omega] at hpay
        have htag5 := tagOf_le_five c
        have hword32 : 0 + 2 ^ 28 * tagOf c < 2 ^ 32 := by omega
        have hr32 := readU32_of_seg hword hword32
        have hr32k := readU32_of_seg hkoff (by omega)
        have hmod : (0 + 2 ^ 28 * tagOf c) % 2 ^ 28 = 0 := by omega
        have hdiv : (0 + 2 ^ 28 * tagOf c) / 2 ^ 28 = tagOf c := by omega
        have hkslice : slice buf 0 0 = some [] := slice_nil buf
        have hseq : readEntries buf (fuel + 1) (base + 16) cs.length =
            .ok (cs.map (fun x => ([], x))) := by
          apply ihcs (base + 16) (childOff + subSize c) hrecRest hregRest
          · intro s hs
            exact hstr s (by simp [strsOfArr, hs])
          · exact hwf.2
          · have := szVal_pos c
            simp only [szArr] at hsz ⊢
            omega
        rw [List.length_cons, List.map_cons, readEntries_succ, readEntriesGo, hr32]
        simp only [Option.elim]
        rw [hr32k]
        simp only [Option.elim]
        rw [hmod, hkslice]
        simp only [Option.elim]
        rw [hdiv]
        cases c with
        | bool b =>
          have hrp := readU64_of_seg hpay (n := if b then 1 else 0) (by cases b <;> simp)
          cases b <;>
            simp [tagOf, hrp, Option.elim, ← readEntries_succ, hseq, Except.map]
        | i64 n =>
          have hwfn : -2 ^ 63 ≤ n ∧ n < 2 ^ 63 := by
            simp only [wfB, Bool.and_eq_true, decide_eq_true_eq] at hwfv
            exact hwfv
          have hrp := readU64_of_seg hpay (i64ToU64_lt n)
          simp [tagOf, hrp, Option.elim, ← readEntries_succ, hseq, Except.map,
            u64ToI64_i64ToU64 hwfn.1 hwfn.2]
        | f64 x =>
          have hx : x < 2 ^ 64 := by
            simp only [wfB, decide_eq_true_eq] at hwfv
            exact hwfv
          have hrp := readU64_of_seg hpay hx
          simp [tagOf, hrp, Option.elim, ← readEntries_succ, hseq, Except.map]
        | str s =>
          have hslen : s.length < 2 ^ 32 := by
            simp only [wfB, Bool.and_eq_true, decide_eq_true_eq] at hwfv
            exact hwfv.2
          have hsmem : SegAt buf (σ s) s := hstr s (by simp [strsOfArr, strsOfVal])
          rw [payload8] at hpay
          obtain ⟨hplen, hpoff⟩ := hpay.split
          rw [u32le_length, show base + 8 + 4 = base + 12 from by omega] at hpoff
          have hr1 := readU32_of_seg hplen hslen
          have hr2 := readU32_of_seg hpoff (by have := hsmem.bound; omega)
          have hsl : slice buf (σ s) s.length = some s := slice_of_seg hsmem
          simp [tagOf, hr1, hr2, hsl, Option.elim, ← readEntries_succ, hseq, Except.map]
        | arr cs₂ =>
          have hsub := hregE.bound
          rw [emitVal_length] at hsub
          have hcnt32 : cs₂.length < 2 ^ 32 := by
            simp only [subSize] at hsub
            omega
          rw [payload8] at hpay
          obtain ⟨hplen, hpoff⟩ := hpay.split
          rw [u32le_length, show base + 8 + 4 = base + 12 from by omega] at hpoff
          have hr1 := readU32_of_seg hplen hcnt32
          have hwfcs : wfArrB cs₂ = true := by
            simp only [wfB, Bool.and_eq_true] at hwfv
            exact hwfv.1
          have hchild : readEntries buf fuel childOff cs₂.length =
              .ok (cs₂.map (fun x => ([], x))) := by
            rw [emitVal] at hregE
            obtain ⟨hcrec, hcreg⟩ := hregE.split
            rw [emitArrRecords_length] at hcreg
            apply ihA cs₂ childOff (childOff + 16 * cs₂.length) hcrec hcreg
            · intro s hs
              exact hstr s (by simp [strsOfArr, strsOfVal, hs])
            · exact hwfcs
            · have h1 : szArr cs₂ < szVal (.arr cs₂) := szArr_of_szVal_arr
              simp only [szArr] at hsz
              omega
          rcases Nat.eq_zero_or_pos cs₂.length with hc0 | hcpos
          · rw [hc0, if_pos rfl] at hpoff
            have hr2 := readU32_of_seg hpoff (by omega)
            have hfuel1 : 1 ≤ fuel := by
              have h1 := szVal_pos (DVal.arr cs₂)
              simp only [szArr, szVal] at hsz
              omega
            have hch0 : readEntries buf fuel 0 0 = .ok [] := readEntries_zero hfuel1
            rw [List.length_eq_zero] at hc0
            subst hc0
            simp [tagOf, hr1, hr2, hch0, Option.elim, ← readEntries_succ, hseq,
              Except.map, Except.bind]
          · have hcoff32 : childOff < 2 ^ 32 := by omega
            rw [if_neg (by omega)] at hpoff
            have hr2 := readU32_of_seg hpoff hcoff32
            simp [tagOf, hr1, hr2, hchild, Option.elim, ← readEntries_succ, hseq,
              Except.map, Except.bind, map_snd_keyless]
        | table es₂ =>
          have hsub := hregE.bound
          rw [emitVal_length] at hsub
          have hcnt32 : es₂.length < 2 ^ 32 := by
            simp only [subSize] at hsub
            omega
          rw [payload8] at hpay
          obtain ⟨hplen, hpoff⟩ := hpay.split
          rw [u32le_length, show base + 8 + 4 = base + 12 from by omega] at hpoff
          have hr1 := readU32_of_seg hplen hcnt32
          have hwfes : wfTblB es₂ = true := by
            simp only [wfB, Bool.and_eq_true] at hwfv
            exact hwfv.1
          have hchild : readEntries buf fuel childOff es₂.length = .ok es₂ := by
            rw [emitVal] at hregE
            obtain ⟨hcrec, hcreg⟩ := hregE.split
            rw [emitTblRecords_length] at hcreg
            apply ihT es₂ childOff (childOff + 16 * es₂.length) hcrec hcreg
            · intro s hs
              exact hstr s (by simp [strsOfArr, strsOfVal, hs])
            · exact hwfes
            · have h1 : szTbl es₂ < szVal (.table es₂) := szTbl_of_szVal_table
              simp only [szArr] at hsz
              omega
          rcases Nat.eq_zero_or_pos es₂.length with hc0 | hcpos
          · rw [hc0, if_pos rfl] at hpoff
            have hr2 := readU32_of_seg hpoff (by omega)
            have hfuel1 : 1 ≤ fuel := by
              have h1 := szVal_pos (DVal.table es₂)
              simp only [szArr, szVal] at hsz
              omega
            have hch0 : readEntries buf fuel 0 0 = .ok [] := readEntries_zero hfuel1
            rw [List.length_eq_zero] at hc0
            subst hc0
            simp [tagOf, hr1, hr2, hch0, Option.elim, ← readEntries_succ, hseq,
              Except.map, Except.bind]
          · have hcoff32 : childOff < 2 ^ 32 := by omega
            rw [if_neg (by omega)] at hpoff
            have hr2 := readU32_of_seg hpoff hcoff32
            simp [tagOf, hr1, hr2, hchild, Option.elim, ← readEntries_succ, hseq,
              Except.map, Except.bind]

/-! ## Round-trip: the full reader on a canonical layout -/

mutual
theorem szVal_le_subSize : ∀ v : DVal, szVal v ≤ 1 + subSize v
  | .bool _ => by simp [szVal, subSize]
  | .i64 _ => by simp [szVal, subSize]
  | .f64 _ => by simp [szVal, subSize]
  | .str _ => by simp [szVal, subSize]
  | .arr cs => by
    have h := szArr_le_subSizeArr cs
    simp only [szVal, subSize]
    omega
  | .table es => by
    have h := szTbl_le_subSizeTbl es
    simp only [szVal, subSize]
    omega

theorem szArr_le_subSizeArr : ∀ cs : List DVal, szArr cs ≤ 16 * cs.length + subSizeArr cs
  | [] => by simp [szArr, subSizeArr]
  | c :: cs => by
    have h1 := szVal_le_subSize c
    have h2 := szArr_le_subSizeArr cs
    simp only [szArr, subSizeArr, List.length_cons]
    omega

theorem szTbl_le_subSizeTbl :
    ∀ es : List (ByteStr × DVal), szTbl es ≤ 16 * es.length + subSizeTbl es
  | [] => by simp [szTbl, subSizeTbl]
  | e :: es => by
    have h1 := szVal_le_subSize e.2
    have h2 := szTbl_le_subSizeTbl es
    simp only [szTbl, subSizeTbl, List.length_cons]
    omega
end

mutual
theorem keysNeB_of_wf : ∀ v : DVal, wfB v = true → keysNeB v = true
  | .bool _ => fun _ => rfl
  | .i64 _ => fun _ => rfl
  | .f64 _ => fun _ => rfl
  | .str _ => fun _ => rfl
  | .arr cs => fun h => by
    simp only [wfB, Bool.and_eq_true] at h
    simp only [keysNeB]
    exact keysNeArrB_of_wf cs h.1
  | .table es => fun h => by
    simp only [wfB, Bool.and_eq_true] at h
    simp only [keysNeB]
    exact keysNeTblB_of_wf es h.1

theorem keysNeArrB_of_wf : ∀ cs : List DVal, wfArrB cs = true → keysNeArrB cs = true
  | [] => fun _ => rfl
  | c :: cs => fun h => by
    simp only [wfArrB, Bool.and_eq_true] at h
    simp only [keysNeArrB, Bool.and_eq_true]
    exact ⟨keysNeB_of_wf c h.1, keysNeArrB_of_wf cs h.2⟩

theorem keysNeTblB_of_wf :
    ∀ es : List (ByteStr × DVal), wfTblB es = true → keysNeTblB es = true
  | [] => fun _ => rfl
  | e :: es => fun h => by
    simp only [wfTblB, Bool.and_eq_true, decide_eq_true_eq] at h
    simp only [keysNeTblB, Bool.and_eq_true, decide_eq_true_eq]
    exact ⟨⟨h.1.1.1.1, keysNeB_of_wf e.2 h.1.2⟩, keysNeTblB_of_wf es h.2⟩
end

mutual
theorem homogAllB_of_wf : ∀ v : DVal, wfB v = true → homogAllB v = true
  | .bool _ => fun _ => rfl
  | .i64 _ => fun _ => rfl
  | .f64 _ => fun _ => rfl
  | .str _ => fun _ => rfl
  | .arr cs => fun h => by
    simp only [wfB, Bool.and_eq_true] at h
    simp only [homogAllB, Bool.and_eq_true]
    exact ⟨h.2, homogAllArrB_of_wf cs h.1⟩
  | .table es => fun h => by
    simp only [wfB, Bool.and_eq_true] at h
    simp only [homogAllB]
    exact homogAllTblB_of_wf es h.1

theorem homogAllArrB_of_wf : ∀ cs : List DVal, wfArrB cs = true → homogAllArrB cs = true
  | [] => fun _ => rfl
  | c :: cs => fun h => by
    simp only [wfArrB, Bool.and_eq_true] at h
    simp only [homogAllArrB, Bool.and_eq_true]
    exact ⟨homogAllB_of_wf c h.1, homogAllArrB_of_wf cs h.2⟩

theorem homogAllTblB_of_wf :
    ∀ es : List (ByteStr × DVal), wfTblB es = true → homogAllTblB es = true
  | [] => fun _ => rfl
  | e :: es => fun h => by
    simp only [wfTblB, Bool.and_eq_true] at h
    simp only [homogAllTblB, Bool.and_eq_true]
    exact ⟨homogAllB_of_wf e.2 h.1.2, homogAllTblB_of_wf es h.2⟩
end

mutual
/-- Every well-formed tree is value-equal to its canonical form: the
canonical entry lists hold the same keys (reordered) with canonical forms
of the same values. -/
theorem veq_canon : ∀ v : DVal, wfB v = true → VEq v (canon v)
  | .bool b => fun _ => .bool b
  | .i64 n => fun _ => .i64 n
  | .f64 x => fun _ => .f64 x
  | .str s => fun _ => .str s
  | .arr cs => fun h => by
    simp only [wfB, Bool.and_eq_true] at h
    simp only [canon]
    refine VEq.arr cs (canonArr cs) (by rw [canonArr_eq_map, List.length_map]) ?_
    intro i v₁ v₂ h₁ h₂
    rw [canonArr_eq_map] at h₂
    have hmap : (cs.map canon).get? i = (cs.get? i).map canon := by
      simp [List.get?_eq_getElem?, List.getElem?_map]
    rw [hmap, h₁] at h₂
    simp only [Option.map_some'] at h₂
    injection h₂ with h₂
    rw [← h₂]
    exact veq_canon_arr cs v₁ (List.get?_mem h₁) (wfArrB_mem h.1 (List.get?_mem h₁))
  | .table es => fun h => by
    simp only [wfB, Bool.and_eq_true] at h
    rw [canon_table_def]
    have hnd : (keysOf es).Nodup := nodupKeysB_iff.mp h.2
    have hndc : (keysOf (canonT es)).Nodup := by
      rw [keysOf_canonT]
      exact (List.perm_insertionSort bLe (keysOf es)).nodup_iff.mpr hnd
    refine VEq.table es (canonT es) ?_ ?_
    · rw [keysOf_canonT]
      exact (List.perm_insertionSort bLe (keysOf es)).symm
    · intro k v₁ v₂ h₁ h₂
      have hm : (k, v₁) ∈ es := lookupB_mem h₁
      have hmc : (k, canon v₁) ∈ canonT es := by
        simp only [canonT]
        apply (List.perm_insertionSort keyLe (canonTbl es)).mem_iff.mpr
        rw [canonTbl_eq_map]
        exact List.mem_map.mpr ⟨(k, v₁), hm, rfl⟩
      rw [lookupB_of_mem_nodup hndc hmc] at h₂
      injection h₂ with h₂
      rw [← h₂]
      exact veq_canon_tbl es (k, v₁) hm (wfTblB_mem h.1 hm)

theorem veq_canon_arr : ∀ (cs : List DVal), ∀ v ∈ cs, wfB v = true → VEq v (canon v)
  | [] => fun v hv => absurd hv (List.not_mem_nil v)
  | c :: cs => fun v hv hwf =>
    (List.mem_cons.mp hv).elim (fun h => by rw [h]; rw [h] at hwf; exact veq_canon c hwf)
      (fun h => veq_canon_arr cs v h hwf)

theorem veq_canon_tbl :
    ∀ (es : List (ByteStr × DVal)), ∀ e ∈ es, wfB e.2 = true → VEq e.2 (canon e.2)
  | [] => fun e he => absurd he (List.not_mem_nil e)
  | x :: es => fun e he hwf =>
    (List.mem_cons.mp he).elim (fun h => by rw [h]; rw [h] at hwf; exact veq_canon x.2 hwf)
      (fun h => veq_canon_tbl es e h hwf)
end

/-- The canonical layout's byte count is the recorded total length. -/
theorem layoutBytes_length (rs : List (ByteStr × DVal)) :
    (layoutBytes rs).length = totalLen rs := by
  simp only [layoutBytes, List.length_append, magicBytes, List.length_cons, List.length_nil,
    u32le_length, emitVal_length, subSize, List.length_flatten, totalLen, heapStart, heapSize]
  omega

/-- Reading back the canonical layout of a well-formed, canonically sorted
root entry list recovers the entry list exactly: the header checks, the
recursive decode and all three §4.2 validations succeed. -/
theorem readBin_layout {rs : List (ByteStr × DVal)}
    (hwf : wfB (.table rs) = true) (hcok : canonOkB (.table rs) = true)
    (hsize : totalLen rs < 2 ^ 32) :
    readBin (layoutBytes rs) = .ok rs := by
  have hlen : (layoutBytes rs).length = totalLen rs := layoutBytes_length rs
  have hbuf32 : (layoutBytes rs).length < 2 ^ 32 := by rw [hlen]; exact hsize
  have hmagic : SegAt (layoutBytes rs) 0 magicBytes :=
    ⟨[], u32le (totalLen rs) ++ u32le rs.length ++
        emitVal (sigmaOf rs) (.table rs) 12 ++ (heapOf rs).flatten,
      by simp [layoutBytes], rfl⟩
  have htot : SegAt (layoutBytes rs) 4 (u32le (totalLen rs)) :=
    ⟨magicBytes, u32le rs.length ++ emitVal (sigmaOf rs) (.table rs) 12 ++ (heapOf rs).flatten,
      by simp [layoutBytes], rfl⟩
  have hcnt : SegAt (layoutBytes rs) 8 (u32le rs.length) :=
    ⟨magicBytes ++ u32le (totalLen rs),
      emitVal (sigmaOf rs) (.table rs) 12 ++ (heapOf rs).flatten,
      by simp [layoutBytes], by simp [magicBytes, u32le_length]⟩
  have hbody : SegAt (layoutBytes rs) 12 (emitVal (sigmaOf rs) (.table rs) 12) :=
    ⟨magicBytes ++ u32le (totalLen rs) ++ u32le rs.length, (heapOf rs).flatten,
      by simp [layoutBytes], by simp [magicBytes, u32le_length]⟩
  have hheap : SegAt (layoutBytes rs) (heapStart rs) ((heapOf rs).flatten) :=
    ⟨magicBytes ++ u32le (totalLen rs) ++ u32le rs.length ++
        emitVal (sigmaOf rs) (.table rs) 12, [],
      by simp [layoutBytes], by
        simp only [List.length_append, magicBytes, List.length_cons, List.length_nil,
          u32le_length, emitVal_length, subSize, heapStart]
        omega⟩
  rw [emitVal] at hbody
  obtain ⟨hrec, hreg⟩ := hbody.split
  rw [emitTblRecords_length] at hreg
  have hstrs : ∀ s ∈ strsOfTbl rs, SegAt (layoutBytes rs) (sigmaOf rs s) s := by
    intro s hs
    have h1 : SegAt ((heapOf rs).flatten) (offIn (heapOf rs) s) s :=
      segAt_flatten (mem_dedupFirst hs)
    have h2 := hheap.inner h1
    simpa [sigmaOf] using h2
  have hwfT : wfTblB rs = true := by
    simp only [wfB, Bool.and_eq_true] at hwf
    exact hwf.1
  have hfuel : szTbl rs < totalLen rs + 1 := by
    have h1 := szTbl_le_subSizeTbl rs
    have h2 : totalLen rs = 12 + 16 * rs.length + subSizeTbl rs + heapSize rs := rfl
    omega
  have hread : readEntries (layoutBytes rs) (totalLen rs + 1) 12 rs.length = .ok rs :=
    (readEntries_rt (sigmaOf rs) (layoutBytes rs) hbuf32 (totalLen rs + 1)).1
      rs 12 (12 + 16 * rs.length) hrec hreg hstrs hwfT hfuel
  have hkn : keysNeTblB rs = true := keysNeTblB_of_wf rs hwfT
  have hha : homogAllTblB rs = true := by
    have h := homogAllB_of_wf (.table rs) hwf
    simpa [homogAllB] using h
  have hms : slice (layoutBytes rs) 0 4 = some magicBytes := by
    have h := hmagic.slice_eq
    rw [show magicBytes.length = 4 from rfl] at h
    exact h
  have hr4 : readU32 (layoutBytes rs) 4 = some (totalLen rs) := readU32_of_seg htot hsize
  have hlen32 : rs.length < 2 ^ 32 := by
    have h2 : totalLen rs = 12 + 16 * rs.length + subSizeTbl rs + heapSize rs := rfl
    omega
  have hr8 : readU32 (layoutBytes rs) 8 = some rs.length := readU32_of_seg hcnt hlen32
  simp [readBin, hms, hr4, hr8, hlen, hread, hkn, hcok, hha]

/-- **C1**: for every dynamic tree whose root table is non-empty (and
well-formed, with the canonical buffer within the `u32` total-length
bound), serialization via `DynConfig::to_bin_config` succeeds, reading the
produced binary buffer back succeeds, and the configuration read back is
value-equal to the original tree. -/
theorem bin_round_trip (es : List (ByteStr × DVal))
    (hwf : wfB (.table es) = true) (hne : es.length ≠ 0)
    (hsize : totalLen (canonT es) < 2 ^ 32) :
    to_bin_config es = .ok (layoutBytes (canonT es)) ∧
    readBin (layoutBytes (canonT es)) = .ok (canonT es) ∧
    VEq (.table es) (.table (canonT es)) := by
  have hwfc := wfB_canon (.table es) hwf
  rw [canon_table_def] at hwfc
  have hcok := canonOkB_canon (.table es) hwf
  rw [canon_table_def] at hcok
  refine ⟨?_, ?_, ?_⟩
  · rw [to_bin_config, if_neg hne, BinConfigWriter.new, if_neg hne]
    exact finish_ok hwf hsize
  · exact readBin_layout hwfc hcok hsize
  · have h := veq_canon (.table es) hwf
    rw [canon_table_def] at h
    exact h

/-- Example tree for the C1 witness: unsorted root keys, a nested table
and a homogeneous array. -/
def tC1 : List (ByteStr × DVal) :=
  [([107], .table [([98], .i64 5), ([97], .str [104, 105])]),
   ([106], .arr [.bool true, .bool false])]

/-- Witness for C1 at a concrete tree. -/
theorem bin_round_trip_witness :
    (wfB (.table tC1) = true ∧ tC1.length ≠ 0 ∧ totalLen (canonT tC1) < 2 ^ 32) ∧
    (to_bin_config tC1 = .ok (layoutBytes (canonT tC1)) ∧
      readBin (layoutBytes (canonT tC1)) = .ok (canonT tC1) ∧
      VEq (.table tC1) (.table (canonT tC1))) :=
  ⟨⟨by decide, by decide, by decide⟩,
    bin_round_trip tC1 (by decide) (by decide) (by decide)⟩

/-- Example table for the C10 witness. -/
def tC10 : List (ByteStr × DVal) :=
  [([120], .str [104, 105]), ([97, 98], .f64 7), ([97], .bool false)]

/-- Witness for C10 at a concrete table. -/
theorem table_get_after_iter_succeeds_witness :
    szVal (DVal.table tC10) ≤ 900 ∧
      ((∀ k ∈ List.insertionSort bLe (keysOf tC10), (lookupB k tC10).isSome = true) ∧
        (table_to_bin_config 900 tC10).isSome = true) :=
  ⟨by decide, table_get_after_iter_succeeds tC10 900 (by decide)⟩


/-! ## The Lua table binding (src/lua_config/table.rs)

`LuaTable` wraps an `rlua` hash table of string keys.  The backing store is
embedded as an association list of (key, value) pairs with distinct keys
(the hash table holds at most one binding per key) together with the
externally maintained stored length (`table_len`/`set_table_len`).  Keys
and strings are lists of characters; Rust compares keys with byte-wise
`str::cmp`, which on valid UTF-8 coincides with code-point lexicographic
order. -/

/-- A Lua-side dynamic value (`Value<LuaString, LuaArray, LuaTable>`).
`f64` payloads are carried as IEEE-754 bit patterns.  A table carries its
entry list and its stored length counter. -/
inductive LuaVal where
  | bool (b : Bool)
  | i64 (n : Int)
  | f64 (bits : Nat)
  | str (s : List Char)
  | arr (cs : List LuaVal)
  | table (es : List (List Char × LuaVal)) (storedLen : Nat)

/-- `ValueType`: the type tag carried by `IncorrectValueType`. -/
inductive LuaValType where
  | boolT
  | i64T
  | f64T
  | stringT
  | arrayT
  | tableT
deriving DecidableEq

/-- `LuaTableGetError`. -/
inductive LuaTableGetError where
  | keyDoesNotExist
  | incorrectValueType (t : LuaValType)
deriving DecidableEq

/-- `LuaTableSetError`. -/
inductive LuaTableSetError where
  | keyDoesNotExist
deriving DecidableEq

/-- `Value::get_type`. -/
def luaTypeOf : LuaVal → LuaValType
  | .bool _ => .boolT
  | .i64 _ => .i64T
  | .f64 _ => .f64T
  | .str _ => .stringT
  | .arr _ => .arrayT
  | .table _ _ => .tableT

/-- First binding of `k` in the backing store (the hash table holds at
most one). -/
def lookupL (k : List Char) : List (List Char × LuaVal) → Option LuaVal
  | [] => none
  | e :: es => if e.1 = k then some e.2 else lookupL k es

/-- Embeds `LuaTable::get_impl`: a missing key reads as `Nil` from the
hash table and `value_from_lua_value` maps `Nil` to `KeyDoesNotExist`. -/
def get_impl (es : List (List Char × LuaVal)) (k : List Char) :
    Except LuaTableGetError LuaVal :=
  match lookupL k es with
  | some v => .ok v
  | none => .error .keyDoesNotExist

/-- Modelled from the spec: the `Value::bool` variant projection used by
the typed accessors (the `Value` enum itself is not under `src/`). -/
def boolVal : LuaVal → Option Bool
  | .bool b => some b
  | _ => none

/-- Modelled from the spec: `Value::i64` variant projection. -/
def i64Val : LuaVal → Option Int
  | .i64 n => some n
  | _ => none

/-- Modelled from the spec: `Value::f64` variant projection. -/
def f64Val : LuaVal → Option Nat
  | .f64 x => some x
  | _ => none

/-- Modelled from the spec: `Value::string` variant projection. -/
def stringVal : LuaVal → Option (List Char)
  | .str s => some s
  | _ => none

/-- Modelled from the spec: `Value::array` variant projection. -/
def arrayVal : LuaVal → Option (List LuaVal)
  | .arr cs => some cs
  | _ => none

/-- Modelled from the spec: `Value::table` variant projection. -/
def tableVal : LuaVal → Option (List (List Char × LuaVal) × Nat)
  | .table es n => some (es, n)
  | _ => none

/-- Embeds `LuaTable::get_bool`: `self.get(key)?` then
`val.bool().ok_or_else(|| IncorrectValueType(val.get_type()))`. -/
def get_bool (es : List (List Char × LuaVal)) (k : List Char) :
    Except LuaTableGetError Bool :=
  match get_impl es k with
  | .error e => .error e
  | .ok val =>
    match boolVal val with
    | some b => .ok b
    | none => .error (.incorrectValueType (luaTypeOf val))

/-- Embeds `LuaTable::get_i64`. -/
def get_i64 (es : List (List Char × LuaVal)) (k : List Char) :
    Except LuaTableGetError Int :=
  match get_impl es k with
  | .error e => .error e
  | .ok val =>
    match i64Val val with
    | some n => .ok n
    | none => .error (.incorrectValueType (luaTypeOf val))

/-- Embeds `LuaTable::get_f64`. -/
def get_f64 (es : List (List Char × LuaVal)) (k : List Char) :
    Except LuaTableGetError Nat :=
  match get_impl es k with
  | .error e => .error e
  | .ok val =>
    match f64Val val with
    | some x => .ok x
    | none => .error (.incorrectValueType (luaTypeOf val))

/-- Embeds `LuaTable::get_string` (the source computes `val.get_type()`
before consuming `val`; the error value is the same). -/
def get_string (es : List (List Char × LuaVal)) (k : List Char) :
    Except LuaTableGetError (List Char) :=
  match get_impl es k with
  | .error e => .error e
  | .ok val =>
    match stringVal val with
    | some s => .ok s
    | none => .error (.incorrectValueType (luaTypeOf val))

/-- Embeds `LuaTable::get_array`. -/
def get_array (es : List (List Char × LuaVal)) (k : List Char) :
    Except LuaTableGetError (List LuaVal) :=
  match get_impl es k with
  | .error e => .error e
  | .ok val =>
    match arrayVal val with
    | some cs => .ok cs
    | none => .error (.incorrectValueType (luaTypeOf val))

/-- Embeds `LuaTable::get_table`. -/
def get_table (es : List (List Char × LuaVal)) (k : List Char) :
    Except LuaTableGetError (List (List Char × LuaVal) × Nat) :=
  match get_impl es k with
  | .error e => .error e
  | .ok val =>
    match tableVal val with
    | some t => .ok t
    | none => .error (.incorrectValueType (luaTypeOf val))

/-- **C5**: for every table and key, each typed accessor returns the value
when its variant matches the requested type and otherwise fails with
`IncorrectValueType` carrying the actual value's type tag; for an absent
key every accessor fails with the key-not-found error. -/
theorem lua_typed_accessors (es : List (List Char × LuaVal)) (k : List Char) :
    (lookupL k es = none →
      get_bool es k = .error .keyDoesNotExist ∧
      get_i64 es k = .error .keyDoesNotExist ∧
      get_f64 es k = .error .keyDoesNotExist ∧
      get_string es k = .error .keyDoesNotExist ∧
      get_array es k = .error .keyDoesNotExist ∧
      get_table es k = .error .keyDoesNotExist) ∧
    (∀ v, lookupL k es = some v →
      (get_bool es k = match v with
        | .bool b => .ok b
        | _ => .error (.incorrectValueType (luaTypeOf v))) ∧
      (get_i64 es k = match v with
        | .i64 n => .ok n
        | _ => .error (.incorrectValueType (luaTypeOf v))) ∧
      (get_f64 es k = match v with
        | .f64 x => .ok x
        | _ => .error (.incorrectValueType (luaTypeOf v))) ∧
      (get_string es k = match v with
        | .str s => .ok s
        | _ => .error (.incorrectValueType (luaTypeOf v))) ∧
      (get_array es k = match v with
        | .arr cs => .ok cs
        | _ => .error (.incorrectValueType (luaTypeOf v))) ∧
      (get_table es k = match v with
        | .table es₂ n => .ok (es₂, n)
        | _ => .error (.incorrectValueType (luaTypeOf v)))) := by
  constructor
  · intro h
    refine ⟨?_, ?_, ?_, ?_, ?_, ?_⟩ <;>
      simp [get_bool, get_i64, get_f64, get_string, get_array, get_table, get_impl, h]
  · intro v h
    refine ⟨?_, ?_, ?_, ?_, ?_, ?_⟩ <;>
      · simp only [get_bool, get_i64, get_f64, get_string, get_array, get_table, get_impl, h]
        cases v <;> rfl

/-- Example table for the C5 witness: one value of each variant. -/
def tC5 : List (List Char × LuaVal) :=
  [(['b'], .bool true), (['n'], .i64 (-3)), (['x'], .f64 17),
   (['s'], .str ['h', 'i']), (['a'], .arr [.bool false]),
   (['t'], .table [(['c'], .i64 1)] 1)]

/-- Witness for C5: a matching and a mismatching accessor on a present
key, and an accessor on an absent key. -/
theorem lua_typed_accessors_witness :
    (lookupL ['z'] tC5 = none ∧ get_bool tC5 ['z'] = .error .keyDoesNotExist) ∧
    (lookupL ['b'] tC5 = some (.bool true) ∧ get_bool tC5 ['b'] = .ok true ∧
      get_i64 tC5 ['b'] = .error (.incorrectValueType .boolT)) :=
  ⟨⟨rfl, ((lua_typed_accessors tC5 ['z']).1 rfl).1⟩,
    ⟨rfl, ((lua_typed_accessors tC5 ['b']).2 (.bool true) rfl).1,
      ((lua_typed_accessors tC5 ['b']).2 (.bool true) rfl).2.1⟩⟩

/-- Embeds `LuaTable::contains_key`: the key reads back non-`Nil`. -/
def contains_key (k : List Char) (es : List (List Char × LuaVal)) : Bool :=
  (lookupL k es).isSome

/-- Setting a key to `Nil` removes its binding from the hash table. -/
def eraseL (k : List Char) : List (List Char × LuaVal) → List (List Char × LuaVal)
  | [] => []
  | e :: es => if e.1 = k then eraseL k es else e :: eraseL k es

/-- Inserting or changing a binding in the hash table (the entry-list
position of a fresh binding is unspecified in the hash table; the model
appends it). -/
def putL (k : List Char) (v : LuaVal) : List (List Char × LuaVal) → List (List Char × LuaVal)
  | [] => [(k, v)]
  | e :: es => if e.1 = k then (k, v) :: es else e :: putL k v es

/-- Embeds `LuaTable::set_impl` on the backing store and stored length:
`Some` inserts or changes (bumping the stored length only for a fresh
key); `None` removes the binding and decrements the stored length when
the key exists, and otherwise fails with `KeyDoesNotExist`.  Returns the
post-state and the optional error (the source mutates in place and
returns `Result<(), _>`). -/
def set_impl (es : List (List Char × LuaVal)) (len : Nat) (k : List Char) :
    Option LuaVal → (List (List Char × LuaVal) × Nat) × Option LuaTableSetError
  | some v =>
    if contains_key k es then ((putL k v es, len), none)
    else ((putL k v es, len + 1), none)
  | none =>
    if contains_key k es then ((eraseL k es, len - 1), none)
    else ((es, len), some .keyDoesNotExist)

theorem eraseL_of_not_mem {k : List Char} :
    ∀ {es : List (List Char × LuaVal)}, k ∉ es.map Prod.fst → eraseL k es = es := by
  intro es
  induction es with
  | nil => intro _; rfl
  | cons x es ih =>
    intro hm
    simp only [List.map_cons, List.mem_cons, not_or] at hm
    rw [eraseL, if_neg (fun hc => hm.1 hc.symm), ih hm.2]

theorem lookupL_eraseL_self (k : List Char) :
    ∀ es : List (List Char × LuaVal), lookupL k (eraseL k es) = none := by
  intro es
  induction es with
  | nil => rfl
  | cons e es ih =>
    by_cases h : e.1 = k
    · rw [eraseL, if_pos h]
      exact ih
    · rw [eraseL, if_neg h, lookupL, if_neg h]
      exact ih

theorem lookupL_eraseL_other {k k₂ : List Char} (hne : k₂ ≠ k) :
    ∀ es : List (List Char × LuaVal), lookupL k₂ (eraseL k es) = lookupL k₂ es := by
  intro es
  induction es with
  | nil => rfl
  | cons e es ih =>
    by_cases h : e.1 = k
    · rw [eraseL, if_pos h, lookupL, if_neg (by rw [h]; exact fun hc => hne hc.symm)]
      exact ih
    · rw [eraseL, if_neg h, lookupL, lookupL, ih]

theorem eraseL_length_of_mem {k : List Char} :
    ∀ {es : List (List Char × LuaVal)}, (es.map Prod.fst).Nodup →
      (lookupL k es).isSome = true → (eraseL k es).length + 1 = es.length := by
  intro es
  induction es with
  | nil => intro _ h; simp [lookupL] at h
  | cons e es ih =>
    intro hnd h
    simp only [List.map_cons, List.nodup_cons] at hnd
    by_cases he : e.1 = k
    · rw [eraseL, if_pos he]
      have herase : eraseL k es = es := eraseL_of_not_mem (he ▸ hnd.1)
      rw [herase, List.length_cons]
    · rw [eraseL, if_neg he, List.length_cons, List.length_cons]
      rw [lookupL, if_neg he] at h
      rw [ih hnd.2 h]

/-- **C9**: `set(key, None)` on an absent key fails with `KeyDoesNotExist`
and leaves the table completely unchanged (same backing store, same stored
length); on a present key it succeeds, removes exactly that binding (all
other keys unchanged), and the stored length decreases by exactly one
(under the invariant that the stored length counts the distinct keys). -/
theorem lua_set_none_semantics (es : List (List Char × LuaVal)) (len : Nat) (k : List Char)
    (hlen : len = es.length) (hnd : (es.map Prod.fst).Nodup) :
    (contains_key k es = false →
      set_impl es len k none = ((es, len), some .keyDoesNotExist)) ∧
    (contains_key k es = true →
      (set_impl es len k none).2 = none ∧
      (set_impl es len k none).1.2 + 1 = len ∧
      lookupL k (set_impl es len k none).1.1 = none ∧
      (∀ k₂, k₂ ≠ k → lookupL k₂ (set_impl es len k none).1.1 = lookupL k₂ es)) := by
  constructor
  · intro h
    rw [set_impl, if_neg (by rw [h]; exact Bool.false_ne_true)]
  · intro h
    have hsome : (lookupL k es).isSome = true := h
    have hpos : 1 ≤ es.length := by
      cases es with
      | nil => simp [lookupL] at hsome
      | cons e es => simp
    refine ⟨?_, ?_, ?_, ?_⟩
    · rw [set_impl, if_pos h]
    · rw [set_impl, if_pos h]
      have h2 := eraseL_length_of_mem hnd hsome
      show len - 1 + 1 = len
      omega
    · rw [set_impl, if_pos h]
      exact lookupL_eraseL_self k es
    · intro k₂ hne
      rw [set_impl, if_pos h]
      exact lookupL_eraseL_other hne es

/-- Example table for the C9 witness. -/
def tC9 : List (List Char × LuaVal) := [(['a'], .bool true), (['b'], .i64 2)]

/-- Witness for C9: removing an absent then a present key concretely. -/
theorem lua_set_none_semantics_witness :
    (2 = tC9.length ∧ (tC9.map Prod.fst).Nodup) ∧
    (contains_key ['z'] tC9 = false ∧
      set_impl tC9 2 ['z'] none = ((tC9, 2), some .keyDoesNotExist)) ∧
    (contains_key ['a'] tC9 = true ∧
      (set_impl tC9 2 ['a'] none).2 = none ∧
      (set_impl tC9 2 ['a'] none).1.2 + 1 = 2 ∧
      lookupL ['a'] (set_impl tC9 2 ['a'] none).1.1 = none) :=
  ⟨⟨by decide, by decide⟩,
    ⟨by decide, (lua_set_none_semantics tC9 2 ['z'] (by decide) (by decide)).1 (by decide)⟩,
    ⟨by decide, (lua_set_none_semantics tC9 2 ['a'] (by decide) (by decide)).2 (by decide) |>.1,
      (lua_set_none_semantics tC9 2 ['a'] (by decide) (by decide)).2 (by decide) |>.2.1,
      (lua_set_none_semantics tC9 2 ['a'] (by decide) (by decide)).2 (by decide) |>.2.2.1⟩⟩


/-! ## The Lua-text pretty-printer (`LuaTable::fmt_indent_impl`)

`fmt_indent_impl` iterates the table's keys in sorted order, looks each
key up (`unwrap`), and prints one entry per line; `DisplayIndent` for
`Value`, the array printer and the scalar renderings live outside `src/`
and are modelled from the spec (§6).  Output is a list of characters.
Recursion into nested containers is fueled (Rust recurses natively);
`none` stands for exhausted fuel or a failed `unwrap`. -/

/-- Key order as a `Prop` relation: Rust `str::cmp`, byte-wise
lexicographic, which on valid UTF-8 equals code-point lexicographic
order. -/
def clLe (a b : List Char) : Prop := lexLe a b = true

instance : DecidableRel clLe := fun a b => by unfold clLe; infer_instance

instance : IsTotal (List Char) clLe := ⟨fun a b => lexLe_total a b⟩

instance : IsTrans (List Char) clLe := ⟨fun _ _ _ h₁ h₂ => lexLe_trans h₁ h₂⟩

instance : IsAntisymm (List Char) clLe := ⟨fun _ _ h₁ h₂ => lexLe_antisymm h₁ h₂⟩

/-- Entry order by key. -/
def entLe (a b : List Char × LuaVal) : Prop := lexLe a.1 b.1 = true

instance : DecidableRel entLe := fun a b => by unfold entLe; infer_instance

instance : IsTotal (List Char × LuaVal) entLe := ⟨fun a b => lexLe_total a.1 b.1⟩

instance : IsTrans (List Char × LuaVal) entLe := ⟨fun _ _ _ h₁ h₂ => lexLe_trans h₁ h₂⟩

/-- Modelled from the spec: `DisplayIndent::do_indent` (not under `src/`)
writes one indentation unit per level; the unit is a tab. -/
def doIndent (n : Nat) : List Char := List.replicate n (Char.ofNat 9)

/-- The `" = "` separator between key and value. -/
def eqSep : List Char := [' ', '=', ' ']

/-- The `" -- "` opening of the trailing key comment. -/
def commentSep : List Char := [' ', '-', '-', ' ']

/-- The `"{"` plus newline a nested table opens with. -/
def openBraceStr : List Char := [Char.ofNat 123, Char.ofNat 10]

/-- The newline plus `"}"` a nested table closes with (written after the
parent-level indentation). -/
def closeBraceStr : List Char := [Char.ofNat 10, Char.ofNat 125]

/-- Modelled from the spec: the `"["` plus newline an array opens with. -/
def openBrackStr : List Char := ['[', Char.ofNat 10]

/-- Modelled from the spec: the newline plus `"]"` an array closes with. -/
def closeBrackStr : List Char := [Char.ofNat 10, ']']

/-- Modelled from the spec: string escaping, `"` and `\` escaped by
`\`. -/
def escChars : List Char → List Char
  | [] => []
  | c :: cs => (if c = '"' ∨ c = '\\' then ['\\', c] else [c]) ++ escChars cs

/-- Modelled from the spec: boolean rendering. -/
def renderBool (b : Bool) : List Char :=
  if b then ['t', 'r', 'u', 'e'] else ['f', 'a', 'l', 's', 'e']

/-- Modelled from the spec: decimal rendering of an `i64`. -/
def renderI64 (n : Int) : List Char :=
  if n < 0 then '-' :: Nat.toDigits 10 (-n).toNat else Nat.toDigits 10 n.toNat

/-- Modelled from the spec: floats print so as to round-trip; the
embedding renders the IEEE-754 bit pattern injectively (a stand-in for
the shortest round-tripping decimal, which the layout claims do not
depend on). -/
def renderF64 (bits : Nat) : List Char := 'f' :: Nat.toDigits 10 bits

/-- Modelled from the spec: double-quoted, escaped string rendering. -/
def renderStr (s : List Char) : List Char := '"' :: (escChars s ++ ['"'])

/-- `is_table` of the entry loop: the value is a nested table or array. -/
def isContainer : LuaVal → Bool
  | .arr _ => true
  | .table _ _ => true
  | _ => false

/-- The entry loop of `LuaTable::fmt_indent_impl` over the sorted key
list, with the rendering of each value delegated to `child`
(`Value::fmt_indent`): indentation, `key = `, the value, a comma when
`c'` is set, the ` -- key` comment when the value is a container, and a
newline after every entry but the one at stored-length position
(`key_index == len - 1`, `u32` arithmetic, so never for `len = 0`).
A failed key lookup is the `unwrap` panic. -/
def fmtEntriesGo (child : LuaVal → Nat → Bool → Option (List Char))
    (es : List (List Char × LuaVal)) (len indent : Nat) (c' : Bool) :
    List (List Char) → Nat → Option (List Char)
  | [], _ => some []
  | k :: ks, idx =>
    match lookupL k es with
    | none => none
    | some v =>
      match child v indent true with
      | none => none
      | some r =>
        match fmtEntriesGo child es len indent c' ks (idx + 1) with
        | none => none
        | some rest =>
          some (doIndent indent ++ k ++ eqSep ++ r ++
            (if c' then [','] else []) ++
            (if isContainer v then commentSep ++ k else []) ++
            (if decide (0 < len) && decide (idx = len - 1) then [] else [Char.ofNat 10]) ++
            rest)

/-- Embeds `LuaTable::fmt_indent_impl`: `comma` is forced off at indent
`0` (the root table); when on, the table opens with a brace line and
closes with the parent-level indentation followed by a newline and the
closing brace; the keys are gathered and sorted, and the entries printed
through `fmtEntriesGo`. -/
def fmtTblImpl (child : LuaVal → Nat → Bool → Option (List Char))
    (es : List (List Char × LuaVal)) (len indent : Nat) (comma : Bool) :
    Option (List Char) :=
  match fmtEntriesGo child es len indent (if indent = 0 then false else comma)
      (List.insertionSort clLe (es.map Prod.fst)) 0 with
  | none => none
  | some body =>
    some ((if (if indent = 0 then false else comma) then openBraceStr else []) ++ body ++
      (if (if indent = 0 then false else comma) then doIndent (indent - 1) ++ closeBraceStr
       else []))

/-- Modelled from the spec: the element loop of the array printer, the
mirror image of the table's entry loop without keys or comments. -/
def fmtElemsGo (child : LuaVal → Nat → Bool → Option (List Char))
    (len indent : Nat) (c' : Bool) : List LuaVal → Nat → Option (List Char)
  | [], _ => some []
  | c :: cs, idx =>
    match child c indent true with
    | none => none
    | some r =>
      match fmtElemsGo child len indent c' cs (idx + 1) with
      | none => none
      | some rest =>
        some (doIndent indent ++ r ++ (if c' then [','] else []) ++
          (if decide (0 < len) && decide (idx = len - 1) then [] else [Char.ofNat 10]) ++
          rest)

/-- Modelled from the spec: the array printer, mirroring the table
printer with square brackets (arrays open `[` on the parent's line, one
element per line, closing `]` similarly). -/
def fmtArrImpl (child : LuaVal → Nat → Bool → Option (List Char))
    (cs : List LuaVal) (indent : Nat) (comma : Bool) : Option (List Char) :=
  match fmtElemsGo child cs.length indent (if indent = 0 then false else comma) cs 0 with
  | none => none
  | some body =>
    some ((if (if indent = 0 then false else comma) then openBrackStr else []) ++ body ++
      (if (if indent = 0 then false else comma) then doIndent (indent - 1) ++ closeBrackStr
       else []))

/-- Modelled from the spec: `Value::fmt_indent` — scalars render inline;
a nested container renders through its own printer one indent level
deeper, passing the comma flag through.  One unit of fuel per nesting
level. -/
def fmtVal : Nat → LuaVal → Nat → Bool → Option (List Char)
  | _, .bool b, _, _ => some (renderBool b)
  | _, .i64 n, _, _ => some (renderI64 n)
  | _, .f64 bits, _, _ => some (renderF64 bits)
  | _, .str s, _, _ => some (renderStr s)
  | 0, .arr _, _, _ => none
  | 0, .table _ _, _, _ => none
  | fuel + 1, .arr cs, indent, comma => fmtArrImpl (fmtVal fuel) cs (indent + 1) comma
  | fuel + 1, .table es len, indent, comma => fmtTblImpl (fmtVal fuel) es len (indent + 1) comma

/-- Embeds `Display for LuaTable`: `fmt_indent_impl(f, 0, true)`. -/
def luaTableToText (fuel : Nat) (es : List (List Char × LuaVal)) (len : Nat) :
    Option (List Char) :=
  fmtTblImpl (fmtVal fuel) es len 0 true

/-! ### Structural size of Lua values, and lookup facts -/

mutual
/-- Structural size of a Lua value (fuel measure for the printer). -/
def szLuaVal : LuaVal → Nat
  | .bool _ => 1
  | .i64 _ => 1
  | .f64 _ => 1
  | .str _ => 1
  | .arr cs => 1 + szLuaArr cs
  | .table es _ => 1 + szLuaTbl es

/-- Structural size of an array's elements. -/
def szLuaArr : List LuaVal → Nat
  | [] => 0
  | c :: cs => 1 + szLuaVal c + szLuaArr cs

/-- Structural size of a table's entries. -/
def szLuaTbl : List (List Char × LuaVal) → Nat
  | [] => 0
  | e :: es => 1 + szLuaVal e.2 + szLuaTbl es
end

theorem szLuaArr_mem {cs : List LuaVal} {c : LuaVal} (h : c ∈ cs) :
    szLuaVal c < szLuaArr cs := by
  induction cs with
  | nil => simp at h
  | cons x cs ih =>
    rcases List.mem_cons.mp h with h | h
    · subst h
      simp only [szLuaArr]
      omega
    · have := ih h
      simp only [szLuaArr]
      omega

theorem szLuaTbl_mem {es : List (List Char × LuaVal)} {e : List Char × LuaVal}
    (h : e ∈ es) : szLuaVal e.2 < szLuaTbl es := by
  induction es with
  | nil => simp at h
  | cons x es ih =>
    rcases List.mem_cons.mp h with h | h
    · subst h
      simp only [szLuaTbl]
      omega
    · have := ih h
      simp only [szLuaTbl]
      omega

theorem lookupL_mem {k : List Char} {es : List (List Char × LuaVal)} {v : LuaVal}
    (h : lookupL k es = some v) : (k, v) ∈ es := by
  induction es with
  | nil => simp [lookupL] at h
  | cons e es ih =>
    rw [lookupL] at h
    by_cases he : e.1 = k
    · rw [if_pos he] at h
      injection h with h
      have hke : (k, v) = e := by rw [← he, ← h]
      rw [hke]
      exact List.mem_cons_self e es
    · rw [if_neg he] at h
      exact List.mem_cons_of_mem _ (ih h)

theorem lookupL_isSome_of_mem_keys {k : List Char} {es : List (List Char × LuaVal)}
    (h : k ∈ es.map Prod.fst) : (lookupL k es).isSome = true := by
  induction es with
  | nil => simp at h
  | cons e es ih =>
    rw [List.map_cons] at h
    rw [lookupL]
    by_cases he : e.1 = k
    · rw [if_pos he]
      rfl
    · rw [if_neg he]
      rcases List.mem_cons.mp h with h₂ | h₂
      · exact absurd h₂.symm he
      · exact ih h₂

theorem lookupL_of_mem_nodup {es : List (List Char × LuaVal)} {k : List Char} {v : LuaVal}
    (hnd : (es.map Prod.fst).Nodup) (hm : (k, v) ∈ es) : lookupL k es = some v := by
  induction es with
  | nil => simp at hm
  | cons e es ih =>
    simp only [List.map_cons, List.nodup_cons] at hnd
    simp only [List.mem_cons] at hm
    rw [lookupL]
    rcases hm with hm | hm
    · subst hm
      simp
    · have hk : e.1 ≠ k := by
        intro he
        exact hnd.1 (he ▸ (List.mem_map.mpr ⟨(k, v), hm, rfl⟩))
      rw [if_neg hk]
      exact ih hnd.2 hm

/-- The value the entry loop's `unwrap` yields for a key. -/
def vOfL (k : List Char) (es : List (List Char × LuaVal)) : LuaVal :=
  (lookupL k es).getD (.bool true)

/-- One printed entry line (the body of the entry loop). -/
def lineOfEntry (indent : Nat) (c' : Bool) (idx len : Nat) (e : List Char × LuaVal)
    (r : List Char) : List Char :=
  doIndent indent ++ e.1 ++ eqSep ++ r ++ (if c' then [','] else []) ++
    (if isContainer e.2 then commentSep ++ e.1 else []) ++
    (if decide (0 < len) && decide (idx = len - 1) then [] else [Char.ofNat 10])

/-- The printed entry lines of a list of (entry, rendered value) pairs. -/
def linesOf (indent : Nat) (c' : Bool) (len : Nat) :
    Nat → List ((List Char × LuaVal) × List Char) → List Char
  | _, [] => []
  | idx, (e, r) :: rest => lineOfEntry indent c' idx len e r ++ linesOf indent c' len (idx + 1) rest

/-- The table wrapper around the entry lines: a brace line before and the
parent-level indentation, a newline and the closing brace after, when
`c'` is set. -/
def wrapTbl (indent : Nat) (c' : Bool) (body : List Char) : List Char :=
  (if c' then openBraceStr else []) ++ body ++
    (if c' then doIndent (indent - 1) ++ closeBraceStr else [])

/-- The entry loop assembles exactly the lines of the looked-up values
when every lookup and every rendering succeeds. -/
theorem fmtEntriesGo_eq (child : LuaVal → Nat → Bool → Option (List Char))
    (es : List (List Char × LuaVal)) (len indent : Nat) (c' : Bool) :
    ∀ (ks : List (List Char)) (idx : Nat),
    (∀ k ∈ ks, (lookupL k es).isSome = true) →
    (∀ k ∈ ks, (child (vOfL k es) indent true).isSome = true) →
    fmtEntriesGo child es len indent c' ks idx =
      some (linesOf indent c' len idx
        (ks.map (fun k => ((k, vOfL k es), (child (vOfL k es) indent true).getD [])))) := by
  intro ks
  induction ks with
  | nil => intro idx _ _; rfl
  | cons k ks ih =>
    intro idx hlk hch
    have h1 : (lookupL k es).isSome = true := hlk k (by simp)
    rcases Option.isSome_iff_exists.mp h1 with ⟨v, hv⟩
    have hvOf : vOfL k es = v := by rw [vOfL, hv]; rfl
    have h2 : (child v indent true).isSome = true := by
      have := hch k (by simp)
      rwa [hvOf] at this
    rcases Option.isSome_iff_exists.mp h2 with ⟨r, hr⟩
    rw [fmtEntriesGo, hv]
    simp only [hr, ih (idx + 1) (fun x hx => hlk x (by simp [hx]))
      (fun x hx => hch x (by simp [hx])),
      List.map_cons, linesOf, lineOfEntry, hvOf, Option.getD_some, List.append_assoc]

/-- Modelled from the spec: one printed array element line. -/
def lineOfElem (indent : Nat) (c' : Bool) (idx len : Nat) (r : List Char) : List Char :=
  doIndent indent ++ r ++ (if c' then [','] else []) ++
    (if decide (0 < len) && decide (idx = len - 1) then [] else [Char.ofNat 10])

/-- Modelled from the spec: the printed element lines of rendered array
elements. -/
def elemLinesOf (indent : Nat) (c' : Bool) (len : Nat) :
    Nat → List (List Char) → List Char
  | _, [] => []
  | idx, r :: rest => lineOfElem indent c' idx len r ++ elemLinesOf indent c' len (idx + 1) rest

theorem fmtElemsGo_eq (child : LuaVal → Nat → Bool → Option (List Char))
    (len indent : Nat) (c' : Bool) :
    ∀ (cs : List LuaVal) (idx : Nat),
    (∀ c ∈ cs, (child c indent true).isSome = true) →
    fmtElemsGo child len indent c' cs idx =
      some (elemLinesOf indent c' len idx
        (cs.map (fun c => (child c indent true).getD []))) := by
  intro cs
  induction cs with
  | nil => intro idx _; rfl
  | cons c cs ih =>
    intro idx hch
    have h1 : (child c indent true).isSome = true := hch c (by simp)
    rcases Option.isSome_iff_exists.mp h1 with ⟨r, hr⟩
    rw [fmtElemsGo]
    simp only [hr, ih (idx + 1) (fun x hx => hch x (by simp [hx])),
      List.map_cons, elemLinesOf, lineOfElem, Option.getD_some, List.append_assoc]

/-- With fuel at least the structural size, the printer always
succeeds. -/
theorem fmtVal_isSome :
    ∀ (fuel : Nat) (v : LuaVal) (indent : Nat) (comma : Bool),
    szLuaVal v ≤ fuel → (fmtVal fuel v indent comma).isSome = true := by
  intro fuel
  induction fuel with
  | zero =>
    intro v indent comma h
    cases v with
    | bool b => rfl
    | i64 n => rfl
    | f64 x => rfl
    | str s => rfl
    | arr cs => simp [szLuaVal] at h
    | table es len => simp [szLuaVal] at h
  | succ fuel ih =>
    intro v indent comma h
    cases v with
    | bool b => rfl
    | i64 n => rfl
    | f64 x => rfl
    | str s => rfl
    | arr cs =>
      simp only [szLuaVal] at h
      rw [fmtVal, fmtArrImpl]
      rw [fmtElemsGo_eq (fmtVal fuel) cs.length (indent + 1)
        (if indent + 1 = 0 then false else comma) cs 0 ?_]
      · rfl
      · intro c hc
        exact ih c (indent + 1) true (by have := szLuaArr_mem hc; omega)
    | table es len =>
      simp only [szLuaVal] at h
      rw [fmtVal, fmtTblImpl]
      rw [fmtEntriesGo_eq (fmtVal fuel) es len (indent + 1)
        (if indent + 1 = 0 then false else comma)
        (List.insertionSort clLe (es.map Prod.fst)) 0 ?_ ?_]
      · rfl
      · intro k hk
        exact lookupL_isSome_of_mem_keys
          ((List.perm_insertionSort clLe (es.map Prod.fst)).mem_iff.mp hk)
      · intro k hk
        have hk₂ : k ∈ es.map Prod.fst :=
          (List.perm_insertionSort clLe (es.map Prod.fst)).mem_iff.mp hk
        have h1 := lookupL_isSome_of_mem_keys hk₂
        rcases Option.isSome_iff_exists.mp h1 with ⟨v, hv⟩
        have hvOf : vOfL k es = v := by rw [vOfL, hv]; rfl
        rw [hvOf]
        have h3 : szLuaVal v < szLuaTbl es := szLuaTbl_mem (lookupL_mem hv)
        exact ih v (indent + 1) true (by omega)

/-- The table's entries in sorted key order. -/
def sortedEntries (es : List (List Char × LuaVal)) : List (List Char × LuaVal) :=
  List.insertionSort entLe es

theorem map_fst_orderedInsert_lua (e : List Char × LuaVal) (l : List (List Char × LuaVal)) :
    (List.orderedInsert entLe e l).map Prod.fst =
      List.orderedInsert clLe e.1 (l.map Prod.fst) := by
  induction l with
  | nil => rfl
  | cons b l ih =>
    simp only [List.orderedInsert, List.map_cons]
    by_cases h : entLe e b
    · rw [if_pos h, if_pos (show clLe e.1 b.1 from h)]
      simp
    · rw [if_neg h, if_neg (show ¬ clLe e.1 b.1 from h)]
      simp [ih]

theorem map_fst_sortedEntries (es : List (List Char × LuaVal)) :
    (sortedEntries es).map Prod.fst = List.insertionSort clLe (es.map Prod.fst) := by
  rw [sortedEntries]
  induction es with
  | nil => rfl
  | cons e es ih =>
    simp only [List.insertionSort, List.map_cons]
    rw [map_fst_orderedInsert_lua, ih]

/-- Under distinct keys, pairing each sorted key with its looked-up value
recovers exactly the sorted entry list: the printed entries are the
table's entries in sorted key order. -/
theorem sortedEntries_eq_keys_map {es : List (List Char × LuaVal)}
    (hnd : (es.map Prod.fst).Nodup) :
    sortedEntries es =
      (List.insertionSort clLe (es.map Prod.fst)).map (fun k => (k, vOfL k es)) := by
  apply eq_map_of_map_eq
  · exact map_fst_sortedEntries es
  · intro x hx
    have hx₂ : x ∈ es := (List.perm_insertionSort entLe es).mem_iff.mp hx
    have hl : lookupL x.1 es = some x.2 := lookupL_of_mem_nodup hnd (by
      rw [show (x.1, x.2) = x from rfl]
      exact hx₂)
    show x = (x.1, vOfL x.1 es)
    rw [vOfL, hl]
    rfl

/-- The central printer equation: with distinct keys and adequate fuel,
`fmt_indent_impl` prints exactly the sorted entry list's lines, wrapped
in braces when the comma flag is in effect. -/
theorem fmtTblImpl_eq (es : List (List Char × LuaVal)) (len indent : Nat)
    (comma : Bool) (fuel : Nat) (hnd : (es.map Prod.fst).Nodup)
    (hfuel : szLuaTbl es ≤ fuel) :
    fmtTblImpl (fmtVal fuel) es len indent comma =
      some (wrapTbl indent (if indent = 0 then false else comma)
        (linesOf indent (if indent = 0 then false else comma) len 0
          ((sortedEntries es).map (fun e => (e, (fmtVal fuel e.2 indent true).getD []))))) := by
  have hlk : ∀ k ∈ List.insertionSort clLe (es.map Prod.fst),
      (lookupL k es).isSome = true := fun k hk =>
    lookupL_isSome_of_mem_keys
      ((List.perm_insertionSort clLe (es.map Prod.fst)).mem_iff.mp hk)
  have hch : ∀ k ∈ List.insertionSort clLe (es.map Prod.fst),
      (fmtVal fuel (vOfL k es) indent true).isSome = true := by
    intro k hk
    have hk₂ : k ∈ es.map Prod.fst :=
      (List.perm_insertionSort clLe (es.map Prod.fst)).mem_iff.mp hk
    rcases Option.isSome_iff_exists.mp (lookupL_isSome_of_mem_keys hk₂) with ⟨v, hv⟩
    have hvOf : vOfL k es = v := by rw [vOfL, hv]; rfl
    rw [hvOf]
    have h3 : szLuaVal v < szLuaTbl es := szLuaTbl_mem (lookupL_mem hv)
    exact fmtVal_isSome fuel v indent true (by omega)
  rw [fmtTblImpl,
    fmtEntriesGo_eq (fmtVal fuel) es len indent (if indent = 0 then false else comma)
      (List.insertionSort clLe (es.map Prod.fst)) 0 hlk hch]
  rw [sortedEntries_eq_keys_map hnd, List.map_map]
  rfl

/-- **C7**: the Lua-text printer writes a table's entries sorted
lexicographically by key — the printed entry sequence is the sorted
permutation of the table's entries — and each printed entry line carries
the trailing ` -- <key>` comment exactly when its value is a nested
table or array (`lineOfEntry`; scalar entries carry none). -/
theorem lua_printer_sorted_comments (es : List (List Char × LuaVal)) (len indent : Nat)
    (comma : Bool) (fuel : Nat) (hnd : (es.map Prod.fst).Nodup)
    (hfuel : szLuaTbl es ≤ fuel) :
    List.Sorted entLe (sortedEntries es) ∧
    (sortedEntries es).Perm es ∧
    fmtTblImpl (fmtVal fuel) es len indent comma =
      some (wrapTbl indent (if indent = 0 then false else comma)
        (linesOf indent (if indent = 0 then false else comma) len 0
          ((sortedEntries es).map (fun e => (e, (fmtVal fuel e.2 indent true).getD []))))) :=
  ⟨List.sorted_insertionSort entLe es, List.perm_insertionSort entLe es,
    fmtTblImpl_eq es len indent comma fuel hnd hfuel⟩

/-- Example table for the C7 witness: unsorted keys; one nested table
(commented), one scalar (not commented). -/
def tC7 : List (List Char × LuaVal) :=
  [(['b'], .table [(['x'], .bool true)] 1), (['a'], .i64 1)]

/-- Witness for C7 at a concrete table. -/
theorem lua_printer_sorted_comments_witness :
    ((tC7.map Prod.fst).Nodup ∧ szLuaTbl tC7 ≤ 9) ∧
    (List.Sorted entLe (sortedEntries tC7) ∧
      (sortedEntries tC7).Perm tC7 ∧
      fmtTblImpl (fmtVal 9) tC7 2 0 true =
        some (wrapTbl 0 (if (0 : Nat) = 0 then false else true)
          (linesOf 0 (if (0 : Nat) = 0 then false else true) 2 0
            ((sortedEntries tC7).map (fun e => (e, (fmtVal 9 e.2 0 true).getD [])))))) :=
  ⟨⟨by decide, by decide⟩,
    lua_printer_sorted_comments tC7 2 0 true 9 (by decide) (by decide)⟩

/-- Example root table for the C8 counterexample. -/
def tC8 : List (List Char × LuaVal) := [(['a'], .bool true)]

/-- **C8** (counterexample): the claim's format — every printed table
opens with a brace, entries end with trailing commas, a closing brace
follows on its own line — fails for the root table: `Display` calls
`fmt_indent_impl(f, 0, true)` and the `indent == 0` guard forces the
comma flag off, so the root prints with no brace, no comma and no
closing brace at all. -/
theorem lua_root_table_braces_cex :
    luaTableToText 3 tC8 1 = some ['a', ' ', '=', ' ', 't', 'r', 'u', 'e'] ∧
    Char.ofNat 123 ∉ ['a', ' ', '=', ' ', 't', 'r', 'u', 'e'] ∧
    Char.ofNat 125 ∉ ['a', ' ', '=', ' ', 't', 'r', 'u', 'e'] ∧
    ',' ∉ ['a', ' ', '=', ' ', 't', 'r', 'u', 'e'] := by
  refine ⟨?_, by decide, by decide, by decide⟩
  rfl

/-- **C8** (amended): the layout the printer actually produces.  The root
table (indent `0`) prints bare: no opening brace, no trailing commas, no
closing brace — just its entry lines.  A nested table (positive indent,
comma flag set) opens with `{` and a newline on the parent's line, prints
one entry per line each with a trailing comma (placed before any
` -- key` comment), and closes with the parent-level indentation, a
newline and `}` — the indentation is written before the newline, at the
tail of the last entry's line, so the closing brace itself always lands
at column 0 rather than at the parent's indent. -/
theorem lua_table_braces_actual (es : List (List Char × LuaVal)) (len indent : Nat)
    (fuel : Nat) (hnd : (es.map Prod.fst).Nodup) (hfuel : szLuaTbl es ≤ fuel)
    (hpos : 0 < indent) :
    luaTableToText fuel es len =
      some (linesOf 0 false len 0
        ((sortedEntries es).map (fun e => (e, (fmtVal fuel e.2 0 true).getD [])))) ∧
    fmtTblImpl (fmtVal fuel) es len indent true =
      some (openBraceStr ++
        linesOf indent true len 0
          ((sortedEntries es).map (fun e => (e, (fmtVal fuel e.2 indent true).getD []))) ++
        doIndent (indent - 1) ++ closeBraceStr) := by
  constructor
  · rw [luaTableToText, fmtTblImpl_eq es len 0 true fuel hnd hfuel]
    simp [wrapTbl]
  · rw [fmtTblImpl_eq es len indent true fuel hnd hfuel]
    rw [if_neg (by omega)]
    rw [wrapTbl, if_pos rfl, if_pos rfl]
    simp [List.append_assoc]

/-- Example table for the C8 amended-claim witness. -/
def tC8w : List (List Char × LuaVal) :=
  [(['k'], .str ['v']), (['j'], .table [(['x'], .i64 1)] 1)]

/-- Witness for the amended C8 at a concrete table and indent 2. -/
theorem lua_table_braces_actual_witness :
    ((tC8w.map Prod.fst).Nodup ∧ szLuaTbl tC8w ≤ 9 ∧ 0 < 2) ∧
    (luaTableToText 9 tC8w 2 =
      some (linesOf 0 false 2 0
        ((sortedEntries tC8w).map (fun e => (e, (fmtVal 9 e.2 0 true).getD [])))) ∧
    fmtTblImpl (fmtVal 9) tC8w 2 2 true =
      some (openBraceStr ++
        linesOf 2 true 2 0
          ((sortedEntries tC8w).map (fun e => (e, (fmtVal 9 e.2 2 true).getD []))) ++
        doIndent 1 ++ closeBraceStr)) :=
  ⟨⟨by decide, by decide, by decide⟩,
    lua_table_braces_actual tC8w 2 2 9 (by decide) (by decide) (by decide)⟩


/-! ## INI array homogeneity (src/ini/config.rs, `IniConfig::add_array_value`)

`src/ini/config.rs` declares only the sink trait; `add_array_value`
documents that delivered values are "guaranteed to be of valid type (i.e.
not mixed) for the array".  The parser enforcing this is not under
`src/`; its array-element loop is modelled from the spec (§4.5): the
first element of an open array establishes the element tag, later
elements matching it are delivered to the sink, and a divergent element
aborts the parse with `MixedArray` at its position. -/

/-- Modelled from the spec: a scalar INI value. -/
inductive IniScalar where
  | bool (b : Bool)
  | i64 (n : Int)
  | f64 (bits : Nat)
  | str (s : List Char)
deriving DecidableEq

/-- Modelled from the spec: the element type tag of an INI array. -/
inductive IniTag where
  | boolTag
  | i64Tag
  | f64Tag
  | strTag
deriving DecidableEq

/-- Modelled from the spec: the tag of a scalar. -/
def iniTagOf : IniScalar → IniTag
  | .bool _ => .boolTag
  | .i64 _ => .i64Tag
  | .f64 _ => .f64Tag
  | .str _ => .strTag

/-- The sink event of interest: `IniConfig::add_array_value`. -/
inductive IniEvent where
  | addArrayValue (v : IniScalar)
deriving DecidableEq

/-- Modelled from the spec: the array-related parse error. -/
inductive IniError where
  | mixedArray (line col : Nat)
deriving DecidableEq

/-- Modelled from the spec: the parser's array-element loop over the
lexed elements (each with its line and column), carrying the established
element tag: with no tag yet the element sets it and is delivered;
with a tag, a matching element is delivered and a divergent one aborts
with `MixedArray` at its position.  Returns the `add_array_value` events
delivered to the sink and the optional abort error. -/
def iniArrayRun : Option IniTag → List (IniScalar × Nat × Nat) →
    List IniEvent × Option IniError
  | _, [] => ([], none)
  | none, e :: rest =>
    (.addArrayValue e.1 :: (iniArrayRun (some (iniTagOf e.1)) rest).1,
      (iniArrayRun (some (iniTagOf e.1)) rest).2)
  | some t, e :: rest =>
    if iniTagOf e.1 = t then
      (.addArrayValue e.1 :: (iniArrayRun (some t) rest).1,
        (iniArrayRun (some t) rest).2)
    else ([], some (.mixedArray e.2.1 e.2.2))

theorem iniArrayRun_some_mem :
    ∀ (l : List (IniScalar × Nat × Nat)) (t : IniTag) (v : IniScalar),
    IniEvent.addArrayValue v ∈ (iniArrayRun (some t) l).1 → iniTagOf v = t := by
  intro l
  induction l with
  | nil => intro t v h; simp [iniArrayRun] at h
  | cons e rest ih =>
    intro t v h
    by_cases he : iniTagOf e.1 = t
    · rw [iniArrayRun, if_pos he] at h
      rcases List.mem_cons.mp h with h | h
      · injection h with h
        rw [h]
        exact he
      · exact ih t v h
    · rw [iniArrayRun, if_neg he] at h
      simp at h

theorem iniArrayRun_all_ok :
    ∀ (l : List (IniScalar × Nat × Nat)) (t : IniTag),
    (∀ e ∈ l, iniTagOf e.1 = t) →
    iniArrayRun (some t) l = (l.map (fun e => .addArrayValue e.1), none) := by
  intro l
  induction l with
  | nil => intro t _; rfl
  | cons e rest ih =>
    intro t h
    rw [iniArrayRun, if_pos (h e (by simp))]
    rw [ih t (fun x hx => h x (by simp [hx]))]
    rfl

theorem iniArrayRun_first_bad :
    ∀ (pre : List (IniScalar × Nat × Nat)) (t : IniTag) (e : IniScalar × Nat × Nat)
      (post : List (IniScalar × Nat × Nat)),
    (∀ x ∈ pre, iniTagOf x.1 = t) → iniTagOf e.1 ≠ t →
    iniArrayRun (some t) (pre ++ e :: post) =
      (pre.map (fun x => .addArrayValue x.1), some (.mixedArray e.2.1 e.2.2)) := by
  intro pre
  induction pre with
  | nil =>
    intro t e post _ hbad
    rw [List.nil_append, iniArrayRun, if_neg hbad]
    rfl
  | cons x pre ih =>
    intro t e post hok hbad
    rw [List.cons_append, iniArrayRun, if_pos (hok x (by simp))]
    rw [ih t e post (fun y hy => hok y (by simp [hy])) hbad]
    rfl

/-- **C6**: with the element tag established by the first element of an
open INI array, every value the parser delivers to the sink's
`add_array_value` carries that same tag (the sink never receives a
mixed-type element); if all elements match, the whole array is delivered
with no error, and the first divergent element instead aborts the parse
with `MixedArray` at that element's line and column, delivering only the
elements before it. -/
theorem ini_array_homogeneity (e₁ : IniScalar × Nat × Nat)
    (rest : List (IniScalar × Nat × Nat)) :
    (∀ v, IniEvent.addArrayValue v ∈ (iniArrayRun none (e₁ :: rest)).1 →
      iniTagOf v = iniTagOf e₁.1) ∧
    ((∀ e ∈ rest, iniTagOf e.1 = iniTagOf e₁.1) →
      iniArrayRun none (e₁ :: rest) =
        ((e₁ :: rest).map (fun e => .addArrayValue e.1), none)) ∧
    (∀ pre e post, rest = pre ++ e :: post →
      (∀ x ∈ pre, iniTagOf x.1 = iniTagOf e₁.1) →
      iniTagOf e.1 ≠ iniTagOf e₁.1 →
      iniArrayRun none (e₁ :: rest) =
        ((e₁ :: pre).map (fun x => .addArrayValue x.1),
          some (.mixedArray e.2.1 e.2.2))) := by
  refine ⟨?_, ?_, ?_⟩
  · intro v h
    rw [iniArrayRun] at h
    rcases List.mem_cons.mp h with h | h
    · injection h with h
      rw [h]
    · exact iniArrayRun_some_mem rest (iniTagOf e₁.1) v h
  · intro h
    rw [iniArrayRun, iniArrayRun_all_ok rest (iniTagOf e₁.1) h]
    rfl
  · intro pre e post hsplit hok hbad
    subst hsplit
    rw [iniArrayRun, iniArrayRun_first_bad pre (iniTagOf e₁.1) e post hok hbad]
    rfl

/-- Witness elements for C6: a `bool`-tagged array with a matching second
element and a divergent `i64` third element at line 3, column 7. -/
def iniC6rest : List (IniScalar × Nat × Nat) :=
  [(.bool false, 2, 5), (.i64 3, 3, 7)]

/-- Witness for C6: the divergent element aborts with `MixedArray` at its
position, with exactly the matching prefix delivered. -/
theorem ini_array_homogeneity_witness :
    iniC6rest = [(.bool false, 2, 5)] ++ (.i64 3, 3, 7) :: [] ∧
    (∀ x ∈ [((IniScalar.bool false : IniScalar), 2, 5)],
      iniTagOf x.1 = iniTagOf (IniScalar.bool true)) ∧
    iniTagOf (IniScalar.i64 3) ≠ iniTagOf (IniScalar.bool true) ∧
    iniArrayRun none ((.bool true, 1, 5) :: iniC6rest) =
      (((.bool true, 1, 5) :: [((IniScalar.bool false : IniScalar), 2, 5)]).map
          (fun x => .addArrayValue x.1),
        some (.mixedArray 3 7)) :=
  ⟨by decide, by decide, by decide,
    (ini_array_homogeneity (.bool true, 1, 5) iniC6rest).2.2
      [(.bool false, 2, 5)] (.i64 3, 3, 7) [] (by decide) (by decide) (by decide)⟩

end MiniCfg
